import Mathlib

/-!
PurpleSec/Escape: the JSON string escaper.

A shallow embedding of `escape.go` and the properties of its one operation,
`JSON`, which turns a byte string into a quoted JSON string literal.

Go strings are byte sequences, so a string is a `List Byte`.  The text
builder `strings.Builder` is the list of bytes written so far.  Every index
and slice expression of the source is checked in the model and yields a
`Fault` when it is out of range, the way the Go runtime would abort.
-/

namespace Escape

/-- One byte of a Go string. -/
abbrev Byte := Fin 256

/-- The ways a run of the model can fail to produce a string. -/
inductive Fault where
  | indexOutOfRange
  | sliceOutOfRange
  | outOfFuel
  deriving DecidableEq, Repr

/-- Outcome of a computation that may abort. -/
inductive Res (α : Type) where
  | ok (a : α)
  | fault (f : Fault)
  deriving DecidableEq, Repr

/-! ## The parts of `unicode/utf8` the source uses -/

/-- The constant `utf8.RuneError`, U+FFFD. -/
def RuneError : Nat := 0xFFFD

/-- The constant `utf8.RuneSelf`: bytes below it are single-byte code points. -/
def RuneSelf : Nat := 0x80

def maskx : Nat := 0x3F
def mask2 : Nat := 0x1F
def mask3 : Nat := 0x0F
def mask4 : Nat := 0x07
def locb : Nat := 0x80
def hicb : Nat := 0xBF

def xx : Nat := 0xF1
def as : Nat := 0xF0
def s1 : Nat := 0x02
def s2 : Nat := 0x13
def s3 : Nat := 0x03
def s4 : Nat := 0x23
def s5 : Nat := 0x34
def s6 : Nat := 0x04
def s7 : Nat := 0x44

/-- The table `utf8.first`: information about the first byte of an encoding. -/
def first (b : Nat) : Nat :=
  if b < 0x80 then as
  else if b < 0xC2 then xx
  else if b < 0xE0 then s1
  else if b = 0xE0 then s2
  else if b < 0xED then s3
  else if b = 0xED then s4
  else if b < 0xF0 then s3
  else if b = 0xF0 then s5
  else if b < 0xF4 then s6
  else if b = 0xF4 then s7
  else xx

/-- The table `utf8.acceptRanges`: the range allowed for the second byte, as
`(lo, hi)`; the entries past the fifth are zero. -/
def acceptRanges (k : Nat) : Nat × Nat :=
  match k with
  | 0 => (locb, hicb)
  | 1 => (0xA0, hicb)
  | 2 => (locb, 0x9F)
  | 3 => (0x90, hicb)
  | 4 => (locb, 0x8F)
  | _ => (0, 0)

/-- Modelled from the spec: `utf8.DecodeRuneInString` is a function of the Go
standard library and not part of the source file; the spec asks for "standard
UTF-8 decoding rules" with a one-byte error unit.  This follows the library's
table-driven algorithm: it returns the code point and the number of bytes it
spans, `(RuneError, 0)` on the empty string and `(RuneError, 1)` on an invalid
encoding.  The reads `s[1]`, `s[2]`, `s[3]` happen after the length test
`n < sz`, so they are in range; the model reads them with a default. -/
def DecodeRuneInString (s : List Byte) : Nat × Nat :=
  let n := s.length
  if n < 1 then (RuneError, 0)
  else
    let b0 := (s.getD 0 0).val
    let x := first b0
    if x ≥ as then
      -- mask := rune(x) << 31 >> 31 is all ones when x is odd (xx), else zero
      (if x % 2 = 1 then RuneError else b0, 1)
    else
      let sz := x &&& 7
      let accept := acceptRanges (x >>> 4)
      if n < sz then (RuneError, 1)
      else
        let b1 := (s.getD 1 0).val
        if b1 < accept.1 ∨ accept.2 < b1 then (RuneError, 1)
        else if sz ≤ 2 then (((b0 &&& mask2) <<< 6) ||| (b1 &&& maskx), 2)
        else
          let b2 := (s.getD 2 0).val
          if b2 < locb ∨ hicb < b2 then (RuneError, 1)
          else if sz ≤ 3 then
            ((((b0 &&& mask3) <<< 12) ||| ((b1 &&& maskx) <<< 6)) ||| (b2 &&& maskx), 3)
          else
            let b3 := (s.getD 3 0).val
            if b3 < locb ∨ hicb < b3 then (RuneError, 1)
            else
              (((((b0 &&& mask4) <<< 18) ||| ((b1 &&& maskx) <<< 12)) |||
                ((b2 &&& maskx) <<< 6)) ||| (b3 &&& maskx), 4)

/-! ## The source: `escape.go` -/

/-- The constant `hex`, the bytes of "0123456789abcdef". -/
def hex : List Byte :=
  [0x30, 0x31, 0x32, 0x33, 0x34, 0x35, 0x36, 0x37, 0x38, 0x39,
   0x61, 0x62, 0x63, 0x64, 0x65, 0x66]

/-- Modelled from the spec: the contents of the 128-entry table `htmlSafeSet`
are linked in from `encoding/json.safeSet` and are not in the source file.
Spec 4.1: a byte is unsafe if it is the double quote, the backslash, or a
control character (0 to 31); every other ASCII byte is safe, `<`, `>` and `&`
included.  One row holds sixteen entries. -/
def htmlSafeSet : List Bool :=
  [false, false, false, false, false, false, false, false, false, false, false, false, false, false, false, false,
   false, false, false, false, false, false, false, false, false, false, false, false, false, false, false, false,
   true, true, false, true, true, true, true, true, true, true, true, true, true, true, true, true,
   true, true, true, true, true, true, true, true, true, true, true, true, true, true, true, true,
   true, true, true, true, true, true, true, true, true, true, true, true, true, true, true, true,
   true, true, true, true, true, true, true, true, true, true, true, true, false, true, true, true,
   true, true, true, true, true, true, true, true, true, true, true, true, true, true, true, true,
   true, true, true, true, true, true, true, true, true, true, true, true, true, true, true, true]

/-- An index expression `t[k]`, which aborts when `k` is out of range. -/
def index {α : Type} (t : List α) (k : Nat) : Res α :=
  match t[k]? with
  | some a => .ok a
  | none => .fault .indexOutOfRange

/-- A slice expression `s[lo:hi]`, which aborts unless `lo ≤ hi ≤ len(s)`. -/
def slice (s : List Byte) (lo hi : Nat) : Res (List Byte) :=
  if lo ≤ hi ∧ hi ≤ s.length then .ok ((s.take hi).drop lo)
  else .fault .sliceOutOfRange

/-- The variables of the scan loop: the builder `e`, the start of the pending
run and the scan position. -/
structure Scan where
  e : List Byte
  start : Nat
  i : Nat
  deriving DecidableEq, Repr

/-- The statement `if start < i { e.WriteString(s[start:i]) }`. -/
def flush (s : List Byte) (st : Scan) : Res (List Byte) :=
  if st.start < st.i then
    match slice s st.start st.i with
    | .ok run => .ok (st.e ++ run)
    | .fault f => .fault f
  else .ok st.e

/-- The `switch b` of the ASCII branch, after the backslash has been written. -/
def writeEscape (e : List Byte) (b : Byte) : Res (List Byte) :=
  if b = 0x5C ∨ b = 0x22 then .ok (e ++ [b])
  else if b = 0x0A then .ok (e ++ [0x6E])
  else if b = 0x0D then .ok (e ++ [0x72])
  else if b = 0x09 then .ok (e ++ [0x74])
  else
    match index hex (b.val >>> 4), index hex (b.val &&& 0xF) with
    | .ok h1, .ok h2 => .ok (e ++ [0x75, 0x30, 0x30] ++ [h1] ++ [h2])
    | .fault f, _ => .fault f
    | _, .fault f => .fault f

/-- One iteration of the loop `for i := 0; i < len(s); { ... }`, entered with
`i < len(s)`. -/
def body (s : List Byte) (st : Scan) : Res Scan :=
  match index s st.i with
  | .fault f => .fault f
  | .ok b =>
    if b.val < RuneSelf then
      match index htmlSafeSet b.val with
      | .fault f => .fault f
      | .ok safe =>
        if safe then .ok { st with i := st.i + 1 }
        else
          match flush s st with
          | .fault f => .fault f
          | .ok e =>
            match writeEscape (e ++ [0x5C]) b with
            | .fault f => .fault f
            | .ok e => .ok { e := e, start := st.i + 1, i := st.i + 1 }
    else
      match slice s st.i s.length with
      | .fault f => .fault f
      | .ok rest =>
        let (c, size) := DecodeRuneInString rest
        if c = RuneError ∧ size = 1 then
          match flush s st with
          | .fault f => .fault f
          | .ok e =>
            .ok { e := e ++ [0x5C, 0x75, 0x66, 0x66, 0x66, 0x64],
                  start := st.i + size, i := st.i + size }
        else if c = 0x2028 ∨ c = 0x2029 then
          match flush s st with
          | .fault f => .fault f
          | .ok e =>
            match index hex (c &&& 0xF) with
            | .fault f => .fault f
            | .ok h =>
              .ok { e := e ++ [0x5C, 0x75, 0x32, 0x30, 0x32] ++ [h],
                    start := st.i + size, i := st.i + size }
        else .ok { st with i := st.i + size }

/-- The loop, run for at most `fuel` iterations. -/
def loop (s : List Byte) : Nat → Scan → Res Scan
  | fuel, st =>
    if st.i < s.length then
      match fuel with
      | 0 => .fault .outOfFuel
      | fuel + 1 =>
        match body s st with
        | .fault f => .fault f
        | .ok st' => loop s fuel st'
    else .ok st

/-- The statements after the loop: flush the last run, write the closing
quote, take the builder's content. -/
def finish (s : List Byte) (st : Scan) : Res (List Byte) :=
  if st.start < s.length then
    match slice s st.start s.length with
    | .fault f => .fault f
    | .ok run => .ok (st.e ++ run ++ [0x22])
  else .ok (st.e ++ [0x22])

/-- The state in which `JSON` enters its loop: the opening quote written to
the empty builder, both cursors at the start. -/
def initial : Scan := { e := [0x22], start := 0, i := 0 }

/-- The function `JSON`, with the loop given `fuel` iterations. -/
def JSONFuel (fuel : Nat) (s : List Byte) : Res (List Byte) :=
  if s.length = 0 then .ok [0x22, 0x22]
  else
    match loop s fuel initial with
    | .fault f => .fault f
    | .ok st => finish s st

/-- The function `JSON`.  Every iteration moves the scan position forward, so
`len(s)` iterations are enough (`JSONFuel_spec` below). -/
def JSON (s : List Byte) : Res (List Byte) :=
  JSONFuel s.length s

/-! ## The naive escaper of the specification -/

/-- A unit of the input: one ASCII byte, one validly encoded multi-byte code
point (with the bytes that encode it), or one byte that starts no valid
encoding. -/
inductive CodeUnit where
  | ascii (b : Byte)
  | scalar (c : Nat) (enc : List Byte)
  | invalid (b : Byte)
  deriving DecidableEq, Repr

/-- The bytes a unit occupies in the input. -/
def CodeUnit.bytes : CodeUnit → List Byte
  | .ascii b => [b]
  | .scalar _ enc => enc
  | .invalid b => [b]

/-- The unit at the head of the string `b :: rest`. -/
def headUnit (b : Byte) (rest : List Byte) : CodeUnit :=
  if b.val < 0x80 then .ascii b
  else
    let d := DecodeRuneInString (b :: rest)
    if d.1 = RuneError ∧ d.2 = 1 then .invalid b
    else .scalar d.1 ((b :: rest).take d.2)

/-- The units of a string, left to right, reading at most `fuel` of them. -/
def unitsFuel : Nat → List Byte → List CodeUnit
  | 0, _ => []
  | _, [] => []
  | fuel + 1, b :: rest =>
    headUnit b rest :: unitsFuel fuel ((b :: rest).drop (headUnit b rest).bytes.length)

/-- The units of a string, left to right; a string has at most as many units
as bytes. -/
def units (s : List Byte) : List CodeUnit :=
  unitsFuel s.length s

/-- The lowercase hexadecimal digit of a value below sixteen. -/
def hexDigit (d : Nat) : Byte :=
  if d < 10 then Fin.ofNat (0x30 + d) else Fin.ofNat (0x61 + (d - 10))

/-- The escape-sequence table of the specification. -/
def escapeUnit : CodeUnit → List Byte
  | .ascii b =>
    if b = 0x5C then [0x5C, 0x5C]
    else if b = 0x22 then [0x5C, 0x22]
    else if b = 0x0A then [0x5C, 0x6E]
    else if b = 0x0D then [0x5C, 0x72]
    else if b = 0x09 then [0x5C, 0x74]
    else if b.val < 0x20 then
      [0x5C, 0x75, 0x30, 0x30, hexDigit (b.val / 16), hexDigit (b.val % 16)]
    else [b]
  | .invalid _ => [0x5C, 0x75, 0x66, 0x66, 0x66, 0x64]
  | .scalar c enc =>
    if c = 0x2028 then [0x5C, 0x75, 0x32, 0x30, 0x32, 0x38]
    else if c = 0x2029 then [0x5C, 0x75, 0x32, 0x30, 0x32, 0x39]
    else enc

/-- The naive escaper: every unit replaced by its entry in the table. -/
def escapeUnits (s : List Byte) : List Byte :=
  (units s).flatMap escapeUnit

/-- A unit that the table replaces by an escape sequence. -/
def CodeUnit.escaped : CodeUnit → Bool
  | .ascii b => decide (b.val < 0x20 ∨ b = 0x22 ∨ b = 0x5C)
  | .scalar c _ => decide (c = 0x2028 ∨ c = 0x2029)
  | .invalid _ => true

/-- What the proofs use of a validly encoded multi-byte code point `c` with
encoding `enc`: the decoder reads it back whatever follows, it has two to four
bytes, all of them non-ASCII, and the two separators have one encoding each. -/
structure WellEncoded (c : Nat) (enc : List Byte) : Prop where
  decode : ∀ t : List Byte, DecodeRuneInString (enc ++ t) = (c, enc.length)
  two_le : 2 ≤ enc.length
  le_four : enc.length ≤ 4
  high : ∀ x ∈ enc, 0x80 ≤ x.val
  lead : ∀ x ∈ enc.head?, 0xC2 ≤ x.val
  cont : ∀ x ∈ enc.tail, x.val ≤ 0xBF
  sep8 : c = 0x2028 → enc = [0xE2, 0x80, 0xA8]
  sep9 : c = 0x2029 → enc = [0xE2, 0x80, 0xA9]


/-- The string a scan state stands for: what has been written, the pending
run, and the naive escape of what is still to be read. -/
def Scan.denote (s : List Byte) (st : Scan) : List Byte :=
  st.e ++ (s.take st.i).drop st.start ++ escapeUnits (s.drop st.i)

/-! ## Reading a JSON string literal back -/

/-- The text a unit stands for: its own bytes, or the encoding of U+FFFD for a
byte that is not part of a valid encoding. -/
def CodeUnit.text : CodeUnit → List Byte
  | .ascii b => [b]
  | .scalar _ enc => enc
  | .invalid _ => [0xEF, 0xBF, 0xBD]

/-- The text of a string with every byte that is not part of a valid UTF-8
encoding replaced by U+FFFD. -/
def replaceInvalid (s : List Byte) : List Byte :=
  (units s).flatMap CodeUnit.text

/-- A string is valid UTF-8 when none of its units is an invalid byte. -/
def validString (s : List Byte) : Bool :=
  (units s).all fun u =>
    match u with
    | .invalid _ => false
    | _ => true

/-- The value of a hexadecimal digit, in either case. -/
def hexVal (b : Byte) : Option Nat :=
  if 0x30 ≤ b.val ∧ b.val ≤ 0x39 then some (b.val - 0x30)
  else if 0x61 ≤ b.val ∧ b.val ≤ 0x66 then some (b.val - 0x61 + 10)
  else if 0x41 ≤ b.val ∧ b.val ≤ 0x46 then some (b.val - 0x41 + 10)
  else none

/-- The value of four hexadecimal digits. -/
def hex4 (a b c d : Byte) : Option Nat :=
  match hexVal a, hexVal b, hexVal c, hexVal d with
  | some x, some y, some z, some w => some (((x * 16 + y) * 16 + z) * 16 + w)
  | _, _, _, _ => none

/-- The standard UTF-8 encoding of a code point; a surrogate or a value past
U+10FFFF is encoded as U+FFFD. -/
def EncodeRune (c : Nat) : List Byte :=
  if c < 0x80 then [Fin.ofNat c]
  else if c < 0x800 then [Fin.ofNat (0xC0 + c / 64), Fin.ofNat (0x80 + c % 64)]
  else if (0xD800 ≤ c ∧ c ≤ 0xDFFF) ∨ 0x10FFFF < c then [0xEF, 0xBF, 0xBD]
  else if c < 0x10000 then
    [Fin.ofNat (0xE0 + c / 4096), Fin.ofNat (0x80 + c / 64 % 64), Fin.ofNat (0x80 + c % 64)]
  else
    [Fin.ofNat (0xF0 + c / 262144), Fin.ofNat (0x80 + c / 4096 % 64),
     Fin.ofNat (0x80 + c / 64 % 64), Fin.ofNat (0x80 + c % 64)]

/-- The character a two-character escape of JSON stands for. -/
def simpleEscape (k : Byte) : Option Byte :=
  if k = 0x22 then some 0x22
  else if k = 0x5C then some 0x5C
  else if k = 0x2F then some 0x2F
  else if k = 0x62 then some 0x08
  else if k = 0x66 then some 0x0C
  else if k = 0x6E then some 0x0A
  else if k = 0x72 then some 0x0D
  else if k = 0x74 then some 0x09
  else none

/-- The low surrogate of a `\uXXXX` escape at the head of a string, if any. -/
def lowSurrogate (s : List Byte) : Option Nat :=
  match s with
  | b :: k :: h1 :: h2 :: h3 :: h4 :: _ =>
    if b = 0x5C ∧ k = 0x75 then
      match hex4 h1 h2 h3 h4 with
      | some d => if 0xDC00 ≤ d ∧ d ≤ 0xDFFF then some d else none
      | none => none
    else none
  | _ => none

/-- One token of the content of a JSON string literal (RFC 8259): the text it
denotes and the number of bytes it spans.  A token is an escape sequence or one
unescaped character; a quote, a control character, an unknown escape or a
byte that is not UTF-8 text is rejected.  Two `\u` escapes that form a
surrogate pair denote one code point. -/
def readToken (s : List Byte) : Option (List Byte × Nat) :=
  match s with
  | [] => none
  | b :: rest =>
    if b = 0x5C then
      match rest with
      | [] => none
      | k :: tail =>
        if k = 0x75 then
          match tail with
          | h1 :: h2 :: h3 :: h4 :: more =>
            match hex4 h1 h2 h3 h4 with
            | none => none
            | some c =>
              if 0xD800 ≤ c ∧ c ≤ 0xDBFF then
                match lowSurrogate more with
                | some d => some (EncodeRune (0x10000 + (c - 0xD800) * 0x400 + (d - 0xDC00)), 12)
                | none => some (EncodeRune c, 6)
              else some (EncodeRune c, 6)
          | _ => none
        else
          match simpleEscape k with
          | some x => some ([x], 2)
          | none => none
    else if b = 0x22 ∨ b.val < 0x20 then none
    else if b.val < 0x80 then some ([b], 1)
    else
      let d := DecodeRuneInString (b :: rest)
      if d.1 = RuneError ∧ d.2 = 1 then none
      else some ((b :: rest).take d.2, d.2)

/-- The text denoted by the content of a JSON string literal, reading at most
`fuel` tokens. -/
def unquoteFuel : Nat → List Byte → Option (List Byte)
  | _, [] => some []
  | 0, _ :: _ => none
  | fuel + 1, b :: rest =>
    match readToken (b :: rest) with
    | none => none
    | some (out, n) =>
      match unquoteFuel fuel ((b :: rest).drop n) with
      | none => none
      | some r => some (out ++ r)

/-- A standard JSON string-literal decoder: strip the quotes, resolve the
escapes.  The content has at most as many tokens as bytes. -/
def unquote (lit : List Byte) : Option (List Byte) :=
  match lit with
  | [] => none
  | q :: rest =>
    if q = 0x22 ∧ rest.getLast? = some 0x22 then unquoteFuel rest.length rest.dropLast
    else none

/-- The decoder applied to the outcome of the escaper. -/
def unquoteRes : Res (List Byte) → Option (List Byte)
  | .ok lit => unquote lit
  | .fault _ => none

/-! ## The grammar of the escaper's output -/

/-- The length of the token at the head of the content of a string literal,
for the tokens the escaper may write: one of the escapes `\"`, `\\`, `\n`,
`\r`, `\t`, a `\u` followed by four hexadecimal digits, or one character (a
validly encoded code point) other than the quote, the backslash and the
control characters below 0x20. -/
def tokenLength (s : List Byte) : Option Nat :=
  match s with
  | [] => none
  | b :: rest =>
    if b = 0x5C then
      match rest with
      | [] => none
      | k :: tail =>
        if k = 0x22 ∨ k = 0x5C ∨ k = 0x6E ∨ k = 0x72 ∨ k = 0x74 then some 2
        else if k = 0x75 then
          match tail with
          | h1 :: h2 :: h3 :: h4 :: _ =>
            if (hexVal h1).isSome ∧ (hexVal h2).isSome ∧ (hexVal h3).isSome ∧ (hexVal h4).isSome
            then some 6 else none
          | _ => none
        else none
    else if b = 0x22 ∨ b.val < 0x20 then none
    else if b.val < 0x80 then some 1
    else
      let d := DecodeRuneInString (b :: rest)
      if d.1 = RuneError ∧ d.2 = 1 then none else some d.2

/-- Whether a string is a sequence of tokens, reading at most `fuel` of them. -/
def tokensFuel : Nat → List Byte → Bool
  | _, [] => true
  | 0, _ :: _ => false
  | fuel + 1, b :: rest =>
    match tokenLength (b :: rest) with
    | none => false
    | some n => tokensFuel fuel ((b :: rest).drop n)

/-- Whether a string is a well-formed JSON string literal: an opening quote, a
sequence of tokens, a closing quote. -/
def isStringLiteral (lit : List Byte) : Bool :=
  match lit with
  | [] => false
  | q :: rest =>
    decide (q = 0x22) && decide (rest.getLast? = some 0x22) && tokensFuel rest.length rest.dropLast

/-- The same check on the outcome of the escaper. -/
def isStringLiteralRes : Res (List Byte) → Bool
  | .ok lit => isStringLiteral lit
  | .fault _ => false

/-- The scan states the loop goes through in at most `fuel` iterations, the
one it starts from included. -/
def states (s : List Byte) : Nat → Scan → List Scan
  | fuel, st =>
    st :: (if st.i < s.length then
      match fuel with
      | 0 => []
      | fuel + 1 =>
        match body s st with
        | .fault _ => []
        | .ok st' => states s fuel st'
    else [])

/-- Whether a unit is a validly encoded multi-byte code point. -/
def CodeUnit.isScalar : CodeUnit → Bool
  | .scalar _ _ => true
  | _ => false

/-! ## The buffer pool -/

/-- The state of a `sync.Pool` of `strings.Builder`s: the contents of the
builders it holds. -/
abbrev Pool := List (List Byte)

/-- The variable `buf` when the program starts: a pool that holds no builder
yet and makes empty builders with `New`. -/
def buf : Pool := []

/-- The call `buf.Get()`: the pool hands out the builder it holds at position
`k` and no longer holds it, or, when it holds none there, a new empty builder
made by `New`.  Which builder a pool hands out is not determined, so `k` is a
parameter. -/
def Pool.get (pool : Pool) (k : Nat) : List Byte × Pool :=
  match pool[k]? with
  | some e => (e, pool.eraseIdx k)
  | none => ([], pool)

/-- The call `buf.Put(e)`. -/
def Pool.put (pool : Pool) (e : List Byte) : Pool :=
  e :: pool

/-- The function `JSON` with the pool as explicit state: the result string and
the pool after the call.  The builder taken from the pool keeps whatever it
holds, `Grow` changes its capacity only, `e.String()` is its whole content, and
it is put back after `Reset`. -/
def JSONPool (pool : Pool) (k : Nat) (s : List Byte) : Res (List Byte × Pool) :=
  if s.length = 0 then .ok ([0x22, 0x22], pool)
  else
    match loop s s.length { e := (pool.get k).1 ++ [0x22], start := 0, i := 0 } with
    | .fault f => .fault f
    | .ok st =>
      match finish s st with
      | .fault f => .fault f
      | .ok r => .ok (r, (pool.get k).2.put [])

/-! ## Properties -/

set_option maxRecDepth 8192

theorem first_lead : ∀ b : Byte, first b.val < as →
    0xC2 ≤ b.val ∧ b.val ≤ 0xF4 ∧ 2 ≤ first b.val &&& 7 ∧ first b.val &&& 7 ≤ 4 ∧
    0x80 ≤ (acceptRanges (first b.val >>> 4)).1 ∧ (acceptRanges (first b.val >>> 4)).2 ≤ 0xBF := by
  decide

theorem first_ascii : ∀ b : Byte, as ≤ first b.val → 0x80 ≤ b.val → first b.val % 2 = 1 := by
  decide

theorem and_maskx (x : Nat) : x &&& 63 = x % 64 := Nat.and_pow_two_sub_one_eq_mod x 6
theorem and_mask2 (x : Nat) : x &&& 31 = x % 32 := Nat.and_pow_two_sub_one_eq_mod x 5
theorem and_mask3 (x : Nat) : x &&& 15 = x % 16 := Nat.and_pow_two_sub_one_eq_mod x 4
theorem and_mask4 (x : Nat) : x &&& 7 = x % 8 := Nat.and_pow_two_sub_one_eq_mod x 3

theorem shl_or (a b k : Nat) (h : b < 2 ^ k) : (a <<< k) ||| b = a * 2 ^ k + b := by
  rw [Nat.shiftLeft_eq, Nat.mul_comm a, ← Nat.mul_add_lt_is_or h]

theorem or2 (a b : Nat) (hb : b < 64) : (a <<< 6) ||| b = a * 64 + b := by
  simpa using shl_or a b 6 (by simpa using hb)

theorem or3 (a b c : Nat) (hb : b < 64) (hc : c < 64) :
    ((a <<< 12) ||| (b <<< 6)) ||| c = a * 4096 + b * 64 + c := by
  have h1 : (a <<< 12) ||| (b <<< 6) = (a * 64 + b) <<< 6 := by
    have := shl_or a (b <<< 6) 12 (by simp [Nat.shiftLeft_eq]; omega)
    rw [this]; simp [Nat.shiftLeft_eq]; omega
  rw [h1, or2 _ _ hc]; omega

theorem or4 (a b c d : Nat) (hb : b < 64) (hc : c < 64) (hd : d < 64) :
    (((a <<< 18) ||| (b <<< 12)) ||| (c <<< 6)) ||| d
      = a * 262144 + b * 4096 + c * 64 + d := by
  have h1 : (a <<< 18) ||| (b <<< 12) = (a * 64 + b) <<< 12 := by
    have := shl_or a (b <<< 12) 18 (by simp [Nat.shiftLeft_eq]; omega)
    rw [this]; simp [Nat.shiftLeft_eq]; omega
  rw [h1, or3 _ _ _ hc hd]; omega

theorem first_four : ∀ b : Byte, first b.val < as → first b.val &&& 7 = 4 →
    16 ≤ (b.val % 8) * 64 + ((acceptRanges (first b.val >>> 4)).1 - 0x80) := by
  decide

theorem first_three : ∀ b : Byte, first b.val < as → first b.val &&& 7 = 3 →
    0xE0 ≤ b.val ∧ b.val ≤ 0xEF := by
  decide

theorem first_two : ∀ b : Byte, first b.val < as → first b.val &&& 7 = 2 → b.val ≤ 0xDF := by
  decide

theorem byte_eq_of_val {b : Byte} {n : Nat} (hn : n < 256) (h : b.val = n) :
    b = Fin.ofNat n := by
  apply Fin.ext
  simp [Fin.ofNat, h, Nat.mod_eq_of_lt hn]

theorem decode_cons (b : Byte) (rest : List Byte) (hb : 0x80 ≤ b.val) :
    DecodeRuneInString (b :: rest) = (RuneError, 1) ∨
    ∃ enc t, b :: rest = enc ++ t ∧
      DecodeRuneInString (b :: rest) = ((DecodeRuneInString (b :: rest)).1, enc.length) ∧
      WellEncoded (DecodeRuneInString (b :: rest)).1 enc := by
  by_cases hx : as ≤ first b.val
  · left
    have := first_ascii b hx hb
    simp [DecodeRuneInString, hx, this]
  · have hx' : first b.val < as := by omega
    obtain ⟨h1, h2, h3, h4, h5, h6⟩ := first_lead b hx'
    by_cases hv : DecodeRuneInString (b :: rest) = (RuneError, 1)
    · exact Or.inl hv
    right
    rcases (show first b.val &&& 7 = 2 ∨ first b.val &&& 7 = 3 ∨ first b.val &&& 7 = 4 by omega)
      with h | h | h
    · -- two bytes
      rcases rest with _ | ⟨b1, t⟩
      · simp [DecodeRuneInString, hx, h] at hv
      by_cases hc : b1.val < (acceptRanges (first b.val >>> 4)).1 ∨
          (acceptRanges (first b.val >>> 4)).2 < b1.val
      · simp [DecodeRuneInString, hx, h, hc] at hv
      have key : ∀ t' : List Byte, DecodeRuneInString (b :: b1 :: t') =
          ((b.val % 32) * 64 + b1.val % 64, 2) := by
        intro t'
        simp [DecodeRuneInString, hx, h, hc, mask2, maskx, and_mask2, and_maskx]
        rw [if_neg (by omega), or2 _ _ (Nat.mod_lt _ (by norm_num))]
      refine ⟨[b, b1], t, rfl, ?_, ?_⟩
      · rw [key]; rfl
      · rw [key]
        have hb1 := b1.isLt
        refine ⟨fun t' => key t', by simp, by simp, ?_, ?_, ?_, ?_, ?_⟩
        · intro x hx; simp at hx; rcases hx with rfl | rfl <;> omega
        · intro x hx; simp at hx; subst hx; omega
        · intro x hx; simp at hx; subst hx; omega
        · intro hc8; simp at hc8; omega
        · intro hc9; simp at hc9; omega
    · -- three bytes
      obtain ⟨he0, hef⟩ := first_three b hx' h
      rcases rest with _ | ⟨b1, _ | ⟨b2, t⟩⟩
      · simp [DecodeRuneInString, hx, h] at hv
      · simp [DecodeRuneInString, hx, h] at hv
      by_cases hc : b1.val < (acceptRanges (first b.val >>> 4)).1 ∨
          (acceptRanges (first b.val >>> 4)).2 < b1.val
      · simp [DecodeRuneInString, hx, h, hc] at hv
      by_cases hc2 : b2.val < locb ∨ hicb < b2.val
      · simp [DecodeRuneInString, hx, h, hc, hc2] at hv
      have key : ∀ t' : List Byte, DecodeRuneInString (b :: b1 :: b2 :: t') =
          ((b.val % 16) * 4096 + (b1.val % 64) * 64 + b2.val % 64, 3) := by
        intro t'
        simp [DecodeRuneInString, hx, h, hc, hc2, mask3, maskx, and_mask3, and_maskx]
        rw [if_neg (by omega), or3 _ _ _ (Nat.mod_lt _ (by norm_num)) (Nat.mod_lt _ (by norm_num))]
      refine ⟨[b, b1, b2], t, rfl, ?_, ?_⟩
      · rw [key]; rfl
      · rw [key]
        have hb1 := b1.isLt
        have hb2 := b2.isLt
        simp only [locb, hicb] at hc2
        refine ⟨fun t' => key t', by simp, by simp, ?_, ?_, ?_, ?_, ?_⟩
        · intro x hx; simp at hx; rcases hx with rfl | rfl | rfl <;> omega
        · intro x hx; simp at hx; subst hx; omega
        · intro x hx; simp at hx; rcases hx with rfl | rfl <;> omega
        · intro hc8; simp at hc8
          have e0 : b = Fin.ofNat 0xE2 := byte_eq_of_val (by norm_num) (by omega)
          have e1 : b1 = Fin.ofNat 0x80 := byte_eq_of_val (by norm_num) (by omega)
          have e2 : b2 = Fin.ofNat 0xA8 := byte_eq_of_val (by norm_num) (by omega)
          subst e0 e1 e2; rfl
        · intro hc9; simp at hc9
          have e0 : b = Fin.ofNat 0xE2 := byte_eq_of_val (by norm_num) (by omega)
          have e1 : b1 = Fin.ofNat 0x80 := byte_eq_of_val (by norm_num) (by omega)
          have e2 : b2 = Fin.ofNat 0xA9 := byte_eq_of_val (by norm_num) (by omega)
          subst e0 e1 e2; rfl
    · -- four bytes
      have h16 := first_four b hx' h
      rcases rest with _ | ⟨b1, _ | ⟨b2, _ | ⟨b3, t⟩⟩⟩
      · simp [DecodeRuneInString, hx, h] at hv
      · simp [DecodeRuneInString, hx, h] at hv
      · simp [DecodeRuneInString, hx, h] at hv
      by_cases hc : b1.val < (acceptRanges (first b.val >>> 4)).1 ∨
          (acceptRanges (first b.val >>> 4)).2 < b1.val
      · simp [DecodeRuneInString, hx, h, hc] at hv
      by_cases hc2 : b2.val < locb ∨ hicb < b2.val
      · simp [DecodeRuneInString, hx, h, hc, hc2] at hv
      by_cases hc3 : b3.val < locb ∨ hicb < b3.val
      · simp [DecodeRuneInString, hx, h, hc, hc2, hc3] at hv
      have key : ∀ t' : List Byte, DecodeRuneInString (b :: b1 :: b2 :: b3 :: t') =
          ((b.val % 8) * 262144 + (b1.val % 64) * 4096 + (b2.val % 64) * 64 + b3.val % 64, 4) := by
        intro t'
        simp [DecodeRuneInString, hx, h, hc, hc2, hc3, mask4, maskx, and_mask4, and_maskx]
        rw [if_neg (by omega), or4 _ _ _ _ (Nat.mod_lt _ (by norm_num))
          (Nat.mod_lt _ (by norm_num)) (Nat.mod_lt _ (by norm_num))]
      refine ⟨[b, b1, b2, b3], t, rfl, ?_, ?_⟩
      · rw [key]; rfl
      · rw [key]
        have hb1 := b1.isLt
        have hb2 := b2.isLt
        have hb3 := b3.isLt
        simp only [locb, hicb] at hc2 hc3
        refine ⟨fun t' => key t', by simp, by simp, ?_, ?_, ?_, ?_, ?_⟩
        · intro x hx; simp at hx; rcases hx with rfl | rfl | rfl | rfl <;> omega
        · intro x hx; simp at hx; subst hx; omega
        · intro x hx; simp at hx; rcases hx with rfl | rfl | rfl <;> omega
        · intro hc8; simp at hc8; omega
        · intro hc9; simp at hc9; omega

theorem headUnit_cases (b : Byte) (rest : List Byte) :
    (b.val < 0x80 ∧ headUnit b rest = .ascii b) ∨
    (0x80 ≤ b.val ∧ headUnit b rest = .invalid b ∧
      DecodeRuneInString (b :: rest) = (RuneError, 1)) ∨
    (0x80 ≤ b.val ∧ ∃ c enc t, headUnit b rest = .scalar c enc ∧ b :: rest = enc ++ t ∧
      DecodeRuneInString (b :: rest) = (c, enc.length) ∧ WellEncoded c enc) := by
  by_cases hb : b.val < 0x80
  · left; exact ⟨hb, by simp [headUnit, hb]⟩
  · right
    have hb' : 0x80 ≤ b.val := by omega
    rcases decode_cons b rest hb' with h | ⟨enc, t, h1, h2, h3⟩
    · left; exact ⟨hb', by simp [headUnit, hb, h], h⟩
    · right
      refine ⟨hb', (DecodeRuneInString (b :: rest)).1, enc, t, ?_, h1, h2, h3⟩
      have hl := h3.two_le
      have h2' : (DecodeRuneInString (b :: rest)).2 = enc.length := by rw [h2]
      have hne : ¬ ((DecodeRuneInString (b :: rest)).1 = RuneError ∧
          (DecodeRuneInString (b :: rest)).2 = 1) := by
        rw [h2']; omega
      simp only [headUnit, hb, if_false, hne]
      rw [h2', h1]
      simp

theorem headUnit_bytes (b : Byte) (rest : List Byte) :
    ∃ t, b :: rest = (headUnit b rest).bytes ++ t ∧
      1 ≤ (headUnit b rest).bytes.length ∧ (headUnit b rest).bytes.length ≤ 4 := by
  rcases headUnit_cases b rest with ⟨_, h⟩ | ⟨_, h, _⟩ | ⟨_, c, enc, t, h, h1, _, h3⟩
  · exact ⟨rest, by simp [h, CodeUnit.bytes]⟩
  · exact ⟨rest, by simp [h, CodeUnit.bytes]⟩
  · refine ⟨t, by simp [h, CodeUnit.bytes, h1], ?_, ?_⟩
    · have := h3.two_le; simp [h, CodeUnit.bytes]; omega
    · have := h3.le_four; simp [h, CodeUnit.bytes]; omega

theorem unitsFuel_stable : ∀ (n m : Nat) (s : List Byte), s.length ≤ n → s.length ≤ m →
    unitsFuel n s = unitsFuel m s := by
  intro n
  induction n with
  | zero =>
    intro m s h0 _
    have : s = [] := List.length_eq_zero.mp (by omega)
    subst this
    cases m <;> simp [unitsFuel]
  | succ n ih =>
    intro m s hn hm
    cases s with
    | nil => cases m <;> simp [unitsFuel]
    | cons b rest =>
      cases m with
      | zero => simp at hm
      | succ m =>
        obtain ⟨t, ht, h1, _⟩ := headUnit_bytes b rest
        simp only [unitsFuel]
        congr 1
        have hlen : ((b :: rest).drop (headUnit b rest).bytes.length).length ≤ rest.length := by
          simp only [List.length_drop, List.length_cons]; omega
        simp only [List.length_cons] at hn hm
        exact ih m _ (by omega) (by omega)

theorem units_nil : units [] = [] := rfl

theorem units_cons (b : Byte) (rest t : List Byte)
    (h : b :: rest = (headUnit b rest).bytes ++ t) :
    units (b :: rest) = headUnit b rest :: units t := by
  have hd : (b :: rest).drop (headUnit b rest).bytes.length = t := by
    conv_lhs => rw [h]
    simp
  obtain ⟨_, _, h1, _⟩ := headUnit_bytes b rest
  have hlen : t.length ≤ rest.length := by
    have := congrArg List.length h
    simp only [List.length_cons, List.length_append] at this
    omega
  simp only [units, List.length_cons, unitsFuel]
  rw [hd]
  congr 1
  exact unitsFuel_stable _ _ _ hlen (le_refl _)

theorem escapeUnits_nil : escapeUnits [] = [] := rfl

theorem escapeUnits_cons (b : Byte) (rest t : List Byte)
    (h : b :: rest = (headUnit b rest).bytes ++ t) :
    escapeUnits (b :: rest) = escapeUnit (headUnit b rest) ++ escapeUnits t := by
  simp [escapeUnits, units_cons b rest t h]

/-- Induction over a string one unit at a time. -/
theorem unit_induction {P : List Byte → Prop} (nil : P [])
    (cons : ∀ b rest t, b :: rest = (headUnit b rest).bytes ++ t → P t → P (b :: rest)) :
    ∀ s, P s := by
  have key : ∀ n (s : List Byte), s.length ≤ n → P s := by
    intro n
    induction n with
    | zero =>
      intro s hs
      have : s = [] := List.length_eq_zero.mp (by omega)
      subst this
      exact nil
    | succ n ih =>
      intro s hs
      cases s with
      | nil => exact nil
      | cons b rest =>
        obtain ⟨t, ht, h1, _⟩ := headUnit_bytes b rest
        have hlen : t.length ≤ n := by
          have := congrArg List.length ht
          simp only [List.length_cons, List.length_append] at this
          simp only [List.length_cons] at hs
          omega
        exact cons b rest t ht (ih t hlen)
  intro s
  exact key s.length s (le_refl _)

theorem index_ok {α : Type} (t : List α) (k : Nat) (h : k < t.length) :
    index t k = .ok (t.get ⟨k, h⟩) := by
  simp [index, List.getElem?_eq_getElem h]

theorem safe_table : ∀ b : Byte, b.val < 0x80 →
    index htmlSafeSet b.val = .ok (!(CodeUnit.ascii b).escaped) := by
  decide

theorem writeEscape_table : ∀ b : Byte, (CodeUnit.ascii b).escaped = true →
    writeEscape [] b = .ok (escapeUnit (.ascii b)).tail ∧
    escapeUnit (.ascii b) = 0x5C :: (escapeUnit (.ascii b)).tail := by
  decide

theorem literal_table : ∀ b : Byte, (CodeUnit.ascii b).escaped = false →
    escapeUnit (.ascii b) = [b] := by
  decide

theorem writeEscape_append (e : List Byte) (b : Byte) :
    writeEscape e b =
      match writeEscape [] b with
      | .ok x => .ok (e ++ x)
      | .fault f => .fault f := by
  unfold writeEscape
  split_ifs <;> simp
  cases index hex (b.val >>> 4) <;> cases index hex (b.val &&& 0xF) <;> simp

theorem flush_ok (s : List Byte) (st : Scan) (hi : st.i ≤ s.length) :
    flush s st = .ok (st.e ++ (s.take st.i).drop st.start) := by
  unfold flush
  split_ifs with h
  · have : st.start ≤ st.i ∧ st.i ≤ s.length := ⟨by omega, hi⟩
    simp [slice, this]
  · have : (s.take st.i).drop st.start = [] := by
      apply List.drop_eq_nil_of_le
      simp only [List.length_take]; omega
    simp [this]

theorem drop_cons_facts (s : List Byte) (i : Nat) (b : Byte) (rest : List Byte)
    (hd : s.drop i = b :: rest) :
    i < s.length ∧ index s i = .ok b ∧ slice s i s.length = .ok (b :: rest) := by
  have hi : i < s.length := by
    by_contra h
    rw [List.drop_eq_nil_of_le (by omega)] at hd
    exact List.noConfusion hd
  refine ⟨hi, ?_, ?_⟩
  · have : s[i]? = some b := by
      have h0 : (s.drop i)[0]? = some b := by rw [hd]; simp
      rw [List.getElem?_drop] at h0
      simpa using h0
    simp [index, this]
  · simp [slice, hi.le, hd]

theorem escapeUnit_literal (u : CodeUnit) (h : u.escaped = false) :
    escapeUnit u = u.bytes := by
  cases u with
  | ascii b => simpa [CodeUnit.bytes] using literal_table b h
  | scalar c enc =>
    simp [CodeUnit.escaped] at h
    simp [escapeUnit, CodeUnit.bytes, h.1, h.2]
  | invalid b => simp [CodeUnit.escaped] at h

theorem body_spec (s : List Byte) (st : Scan) (b : Byte) (rest : List Byte)
    (hd : s.drop st.i = b :: rest) :
    body s st = .ok (
      if (headUnit b rest).escaped then
        { e := st.e ++ (s.take st.i).drop st.start ++ escapeUnit (headUnit b rest),
          start := st.i + (headUnit b rest).bytes.length,
          i := st.i + (headUnit b rest).bytes.length }
      else { st with i := st.i + (headUnit b rest).bytes.length }) := by
  obtain ⟨hi, hidx, hsl⟩ := drop_cons_facts s st.i b rest hd
  have hfl := flush_ok s st hi.le
  rcases headUnit_cases b rest with ⟨hb, hu⟩ | ⟨hb, hu, hdec⟩ | ⟨hb, c, enc, t, hu, -, hdec, hw⟩
  · -- an ASCII byte
    rw [hu]
    have hs := safe_table b hb
    cases hesc : (CodeUnit.ascii b).escaped with
    | false =>
      simp [body, hidx, RuneSelf, hb, hs, hesc, CodeUnit.bytes]
    | true =>
      obtain ⟨hw1, hw2⟩ := writeEscape_table b hesc
      have hwe : writeEscape (st.e ++ List.drop st.start (List.take st.i s) ++ [0x5C]) b =
          .ok (st.e ++ List.drop st.start (List.take st.i s) ++ escapeUnit (.ascii b)) := by
        rw [writeEscape_append, hw1]
        conv_rhs => rw [hw2]
        simp
      simp only [body, hidx, RuneSelf, hb, hs, hesc, hfl, hwe, CodeUnit.bytes]
      simp
  · -- an invalid byte
    rw [hu]
    have hb' : ¬ b.val < 0x80 := by omega
    simp [body, hidx, RuneSelf, hb', hsl, hdec, hfl, CodeUnit.escaped, escapeUnit,
      CodeUnit.bytes]
  · -- a multi-byte code point
    rw [hu]
    have hb' : ¬ b.val < 0x80 := by omega
    have hl := hw.two_le
    have hne : ¬ (c = RuneError ∧ enc.length = 1) := by omega
    by_cases h8 : c = 0x2028
    · subst h8
      have hx : index hex (0x2028 &&& 0xF) = .ok (0x38 : Byte) := by decide
      simp [body, hidx, RuneSelf, hb', hsl, hdec, hfl, CodeUnit.escaped, escapeUnit,
        CodeUnit.bytes, hne, hx]
    by_cases h9 : c = 0x2029
    · subst h9
      have hx : index hex (0x2029 &&& 0xF) = .ok (0x39 : Byte) := by decide
      simp [body, hidx, RuneSelf, hb', hsl, hdec, hfl, CodeUnit.escaped, escapeUnit,
        CodeUnit.bytes, hne, hx]
    simp [body, hidx, RuneSelf, hb', hsl, hdec, CodeUnit.escaped, CodeUnit.bytes, hne, h8, h9]

theorem body_step_aux (s : List Byte) (st : Scan) (b : Byte) (rest t : List Byte)
    (hd : s.drop st.i = b :: rest) (ht : b :: rest = (headUnit b rest).bytes ++ t) :
    ∃ st', body s st = .ok st' ∧ st'.i = st.i + (headUnit b rest).bytes.length ∧
      st'.i ≤ s.length ∧
      (st'.start = st.start ∨ st'.start = st'.i) ∧
      (st.start ≤ st.i → st'.denote s = st.denote s) := by
  have hb := body_spec s st _ _ hd
  have hesc := escapeUnits_cons _ _ t ht
  rw [← hd] at hesc
  generalize headUnit b rest = u at *
  have hlen : st.i + u.bytes.length + t.length = s.length := by
    have := congrArg List.length ht
    rw [← hd] at this
    simp only [List.length_drop, List.length_append] at this
    have hi : st.i < s.length := (drop_cons_facts s st.i b rest hd).1
    omega
  have hdt : s.drop (st.i + u.bytes.length) = t := by
    rw [← List.drop_drop, hd, ht]
    simp
  cases hu : u.escaped with
  | true =>
    rw [hu] at hb
    refine ⟨_, hb, ?_, ?_, ?_, ?_⟩
    · simp
    · simp; omega
    · right; simp
    · intro _
      simp only [Scan.denote, hdt, hesc, if_true]
      have : List.drop (st.i + u.bytes.length) (List.take (st.i + u.bytes.length) s) = [] := by
        apply List.drop_eq_nil_of_le
        simp
      rw [this]
      simp
  | false =>
    rw [hu] at hb
    refine ⟨_, hb, ?_, ?_, ?_, ?_⟩
    · simp
    · simp; omega
    · left; simp
    · intro hs
      simp only [Scan.denote, hdt, hesc, escapeUnit_literal _ hu, Bool.false_eq_true, if_false]
      have htk : List.take (st.i + u.bytes.length) s = List.take st.i s ++ u.bytes := by
        rw [List.take_add, hd, ht]
        simp
      rw [htk, List.drop_append_of_le_length (by simp; omega)]
      simp

theorem body_step (s : List Byte) (st : Scan) (hi : st.i < s.length) :
    ∃ st', body s st = .ok st' ∧ st.i + 1 ≤ st'.i ∧ st'.i ≤ st.i + 4 ∧ st'.i ≤ s.length ∧
      (st'.start = st.start ∨ st'.start = st'.i) ∧
      (st.start ≤ st.i → st'.denote s = st.denote s) := by
  have hd : s.drop st.i = s[st.i] :: s.drop (st.i + 1) := List.drop_eq_getElem_cons hi
  obtain ⟨t, ht, h1, h4⟩ := headUnit_bytes s[st.i] (s.drop (st.i + 1))
  obtain ⟨st', h, hi', hl, hs, hden⟩ := body_step_aux s st _ _ t hd ht
  exact ⟨st', h, by omega, by omega, hl, hs, hden⟩

theorem loop_spec (s : List Byte) : ∀ (fuel : Nat) (st : Scan),
    s.length ≤ st.i + fuel → st.i ≤ s.length →
    ∃ st', loop s fuel st = .ok st' ∧ st'.i = s.length ∧
      (st.start ≤ st.i → st'.start ≤ st'.i ∧ st'.denote s = st.denote s) := by
  intro fuel
  induction fuel with
  | zero =>
    intro st hf hi
    have : ¬ st.i < s.length := by omega
    exact ⟨st, by simp [loop, this], by omega, fun h => ⟨h, rfl⟩⟩
  | succ n ih =>
    intro st hf hi
    by_cases hlt : st.i < s.length
    · obtain ⟨st1, hb, h1, _, hl, hs, hden⟩ := body_step s st hlt
      obtain ⟨st2, hl2, hi2, hden2⟩ := ih st1 (by omega) hl
      refine ⟨st2, by simp [loop, hlt, hb, hl2], hi2, ?_⟩
      intro hst
      have hs1 : st1.start ≤ st1.i := by omega
      obtain ⟨h3, h4⟩ := hden2 hs1
      exact ⟨h3, by rw [h4, hden hst]⟩
    · exact ⟨st, by simp [loop, hlt], by omega, fun h => ⟨h, rfl⟩⟩

theorem finish_spec (s : List Byte) (st : Scan) (hi : st.i = s.length) :
    finish s st = .ok (st.denote s ++ [0x22]) := by
  have hden : st.denote s = st.e ++ s.drop st.start := by
    simp [Scan.denote, hi, escapeUnits_nil]
  rw [hden]
  unfold finish
  split_ifs with h
  · simp [slice, h.le]
  · simp [List.drop_eq_nil_of_le (show s.length ≤ st.start by omega)]

/-- The scan computes the naive escape between two quotes, with any fuel of at
least `len(s)`. -/
theorem JSONFuel_spec (fuel : Nat) (s : List Byte) (hf : s.length ≤ fuel) :
    JSONFuel fuel s = .ok ([0x22] ++ escapeUnits s ++ [0x22]) := by
  unfold JSONFuel
  split_ifs with h0
  · have : s = [] := List.length_eq_zero.mp h0
    subst this
    simp [escapeUnits_nil]
  · obtain ⟨st', hl, hi, hden⟩ :=
      loop_spec s fuel initial (by simpa [initial] using hf) (by simp [initial])
    obtain ⟨_, hd⟩ := hden (by simp [initial])
    rw [hl]
    simp only []
    rw [finish_spec s st' hi, hd]
    simp [Scan.denote, initial]

theorem JSON_spec (s : List Byte) : JSON s = .ok ([0x22] ++ escapeUnits s ++ [0x22]) :=
  JSONFuel_spec s.length s (le_refl _)

theorem ascii_shape : ∀ b : Byte, b.val < 0x80 →
    (escapeUnit (.ascii b) = [0x5C, (escapeUnit (.ascii b)).getD 1 0] ∧
      ((escapeUnit (.ascii b)).getD 1 0 = 0x22 ∨ (escapeUnit (.ascii b)).getD 1 0 = 0x5C ∨
        (escapeUnit (.ascii b)).getD 1 0 = 0x6E ∨ (escapeUnit (.ascii b)).getD 1 0 = 0x72 ∨
        (escapeUnit (.ascii b)).getD 1 0 = 0x74) ∧
      simpleEscape ((escapeUnit (.ascii b)).getD 1 0) = some b ∧
      (CodeUnit.ascii b).escaped = true) ∨
    (escapeUnit (.ascii b) = [0x5C, 0x75, (escapeUnit (.ascii b)).getD 2 0,
        (escapeUnit (.ascii b)).getD 3 0, (escapeUnit (.ascii b)).getD 4 0,
        (escapeUnit (.ascii b)).getD 5 0] ∧
      hex4 ((escapeUnit (.ascii b)).getD 2 0) ((escapeUnit (.ascii b)).getD 3 0)
        ((escapeUnit (.ascii b)).getD 4 0) ((escapeUnit (.ascii b)).getD 5 0) = some b.val ∧
      b.val < 0x20 ∧ EncodeRune b.val = [b] ∧ (CodeUnit.ascii b).escaped = true) ∨
    (escapeUnit (.ascii b) = [b] ∧ 0x20 ≤ b.val ∧ b ≠ 0x22 ∧ b ≠ 0x5C ∧
      (CodeUnit.ascii b).escaped = false) := by
  decide

/-- The four shapes of what the table writes for the unit at the head of a
string: a two-character escape, a `\u` escape, one ASCII character, or the
encoding of a multi-byte code point. -/
theorem escapeUnit_shape (b : Byte) (rest : List Byte) :
    (∃ k x, escapeUnit (headUnit b rest) = [0x5C, k] ∧
      (k = 0x22 ∨ k = 0x5C ∨ k = 0x6E ∨ k = 0x72 ∨ k = 0x74) ∧
      simpleEscape k = some x ∧ (headUnit b rest).text = [x] ∧
      (headUnit b rest).escaped = true) ∨
    (∃ h1 h2 h3 h4 c, escapeUnit (headUnit b rest) = [0x5C, 0x75, h1, h2, h3, h4] ∧
      hex4 h1 h2 h3 h4 = some c ∧ ¬ (0xD800 ≤ c ∧ c ≤ 0xDFFF) ∧
      EncodeRune c = (headUnit b rest).text ∧ (headUnit b rest).escaped = true) ∨
    (∃ a, escapeUnit (headUnit b rest) = [a] ∧ (headUnit b rest).text = [a] ∧
      0x20 ≤ a.val ∧ a.val < 0x80 ∧ a ≠ 0x22 ∧ a ≠ 0x5C ∧
      (headUnit b rest).escaped = false) ∨
    (∃ c enc, escapeUnit (headUnit b rest) = enc ∧ (headUnit b rest).text = enc ∧
      WellEncoded c enc ∧ (headUnit b rest).escaped = false ∧
      headUnit b rest = .scalar c enc ∧ c ≠ 0x2028 ∧ c ≠ 0x2029) := by
  rcases headUnit_cases b rest with ⟨hb, hu⟩ | ⟨hb, hu, hdec⟩ | ⟨hb, c, enc, t, hu, -, hdec, hw⟩
  · rw [hu]
    rcases ascii_shape b hb with ⟨h1, h2, h3, h4⟩ | ⟨h1, h2, h3, h4, h5⟩ | ⟨h1, h2, h3, h4, h5⟩
    · exact Or.inl ⟨_, b, h1, h2, h3, rfl, h4⟩
    · exact Or.inr (Or.inl ⟨_, _, _, _, b.val, h1, h2, by omega, h4, h5⟩)
    · exact Or.inr (Or.inr (Or.inl ⟨b, h1, rfl, h2, hb, h3, h4, h5⟩))
  · rw [hu]
    have henc : EncodeRune 0xFFFD = [0xEF, 0xBF, 0xBD] := by decide
    exact Or.inr (Or.inl ⟨0x66, 0x66, 0x66, 0x64, 0xFFFD, rfl, by decide, by decide,
      henc, rfl⟩)
  · rw [hu]
    by_cases h8 : c = 0x2028
    · have := hw.sep8 h8
      subst h8 this
      have henc : EncodeRune 0x2028 = [0xE2, 0x80, 0xA8] := by decide
      exact Or.inr (Or.inl ⟨0x32, 0x30, 0x32, 0x38, 0x2028, rfl, by decide, by decide,
        henc, rfl⟩)
    by_cases h9 : c = 0x2029
    · have := hw.sep9 h9
      subst h9 this
      have henc : EncodeRune 0x2029 = [0xE2, 0x80, 0xA9] := by decide
      exact Or.inr (Or.inl ⟨0x32, 0x30, 0x32, 0x39, 0x2029, rfl, by decide, by decide,
        henc, rfl⟩)
    exact Or.inr (Or.inr (Or.inr ⟨c, enc, by simp [escapeUnit, h8, h9], rfl, hw,
      by simp [CodeUnit.escaped, h8, h9], rfl, h8, h9⟩))

theorem wellEncoded_cons {c : Nat} {enc : List Byte} (hw : WellEncoded c enc) :
    ∃ e0 tl, enc = e0 :: tl ∧ 0xC2 ≤ e0.val := by
  cases enc with
  | nil => have := hw.two_le; simp at this
  | cons e0 tl => exact ⟨e0, tl, rfl, hw.lead e0 (by simp)⟩

theorem readToken_escapeUnit (b : Byte) (rest r : List Byte) :
    readToken (escapeUnit (headUnit b rest) ++ r) =
      some ((headUnit b rest).text, (escapeUnit (headUnit b rest)).length) := by
  rcases escapeUnit_shape b rest with ⟨k, x, he, hk, hs, ht, -⟩ |
    ⟨h1, h2, h3, h4, c, he, hh, hc, henc, -⟩ | ⟨a, he, ht, h20, h80, hq, hbs, -⟩ |
    ⟨c, enc, he, ht, hw, -⟩
  · rw [he, ht]
    have hk75 : k ≠ 0x75 := by
      rcases hk with rfl | rfl | rfl | rfl | rfl <;> decide
    simp [readToken, hk75, hs]
  · rw [he, ← henc]
    have hc' : ¬ (0xD800 ≤ c ∧ c ≤ 0xDBFF) := by omega
    simp [readToken, hh, hc']
  · rw [he, ht]
    have h1 : ¬ (a = 0x22 ∨ a.val < 0x20) := by
      rintro (h | h)
      · exact hq h
      · omega
    simp only [readToken, List.singleton_append, hbs, if_false, h1, h80, if_true,
      List.length_singleton]
  · rw [he, ht]
    obtain ⟨e0, tl, rfl, h0⟩ := wellEncoded_cons hw
    have hd := hw.decode r
    have hl := hw.two_le
    have hbs : e0 ≠ 0x5C := by
      intro h; rw [h] at h0; revert h0; decide
    have h1 : ¬ (e0 = 0x22 ∨ e0.val < 0x20) := by
      rintro (h | h)
      · rw [h] at h0; revert h0; decide
      · omega
    have h2 : ¬ e0.val < 0x80 := by omega
    have hne : ¬ (c = RuneError ∧ (e0 :: tl).length = 1) := by omega
    simp only [List.cons_append] at hd
    simp only [readToken, List.cons_append, hbs, if_false, h1, h2, hd, hne]
    simp

theorem tokenLength_escapeUnit (b : Byte) (rest r : List Byte) :
    tokenLength (escapeUnit (headUnit b rest) ++ r) =
      some (escapeUnit (headUnit b rest)).length := by
  rcases escapeUnit_shape b rest with ⟨k, x, he, hk, hs, ht, -⟩ |
    ⟨h1, h2, h3, h4, c, he, hh, hc, henc, -⟩ | ⟨a, he, ht, h20, h80, hq, hbs, -⟩ |
    ⟨c, enc, he, ht, hw, -⟩
  · rw [he]
    simp [tokenLength, hk]
  · rw [he]
    have hsome : (hexVal h1).isSome ∧ (hexVal h2).isSome ∧ (hexVal h3).isSome ∧
        (hexVal h4).isSome := by
      unfold hex4 at hh
      revert hh
      cases hexVal h1 <;> cases hexVal h2 <;> cases hexVal h3 <;> cases hexVal h4 <;> simp
    have h75 : ¬ ((0x75 : Byte) = 0x22 ∨ (0x75 : Byte) = 0x5C ∨ (0x75 : Byte) = 0x6E ∨
        (0x75 : Byte) = 0x72 ∨ (0x75 : Byte) = 0x74) := by decide
    simp only [tokenLength, List.cons_append, if_true, h75, if_false, hsome, and_self]
    simp
  · rw [he]
    have h1 : ¬ (a = 0x22 ∨ a.val < 0x20) := by
      rintro (h | h)
      · exact hq h
      · omega
    simp only [tokenLength, List.singleton_append, hbs, if_false, h1, h80, if_true,
      List.length_singleton]
  · rw [he]
    obtain ⟨e0, tl, rfl, h0⟩ := wellEncoded_cons hw
    have hd := hw.decode r
    have hl := hw.two_le
    have hbs : e0 ≠ 0x5C := by
      intro h; rw [h] at h0; revert h0; decide
    have h1 : ¬ (e0 = 0x22 ∨ e0.val < 0x20) := by
      rintro (h | h)
      · rw [h] at h0; revert h0; decide
      · omega
    have h2 : ¬ e0.val < 0x80 := by omega
    have hne : ¬ (c = RuneError ∧ (e0 :: tl).length = 1) := by omega
    simp only [List.cons_append] at hd
    simp only [tokenLength, List.cons_append, hbs, if_false, h1, h2, hd, hne]

theorem escapeUnit_ne_nil (b : Byte) (rest : List Byte) :
    escapeUnit (headUnit b rest) ≠ [] := by
  rcases escapeUnit_shape b rest with ⟨k, x, he, -⟩ | ⟨h1, h2, h3, h4, c, he, -⟩ |
    ⟨a, he, -⟩ | ⟨c, enc, he, ht, hw, -⟩
  · simp [he]
  · simp [he]
  · simp [he]
  · obtain ⟨e0, tl, rfl, -⟩ := wellEncoded_cons hw
    simp [he]

theorem units_bytes (s : List Byte) : (units s).flatMap CodeUnit.bytes = s := by
  induction s using unit_induction with
  | nil => rfl
  | cons b rest t ht ih =>
    rw [units_cons b rest t ht, List.flatMap_cons, ih]
    exact ht.symm

theorem replaceInvalid_cons (b : Byte) (rest t : List Byte)
    (h : b :: rest = (headUnit b rest).bytes ++ t) :
    replaceInvalid (b :: rest) = (headUnit b rest).text ++ replaceInvalid t := by
  simp [replaceInvalid, units_cons b rest t h]

theorem replaceInvalid_valid (s : List Byte) (hv : validString s = true) :
    replaceInvalid s = s := by
  induction s using unit_induction with
  | nil => rfl
  | cons b rest t ht ih =>
    rw [replaceInvalid_cons b rest t ht]
    simp only [validString, units_cons b rest t ht, List.all_cons, Bool.and_eq_true] at hv
    have ih' := ih (by simpa [validString] using hv.2)
    rw [ih']
    conv_rhs => rw [ht]
    have h1 := hv.1
    cases hu : headUnit b rest with
    | ascii a => rfl
    | scalar c enc => rfl
    | invalid a => rw [hu] at h1; simp at h1

theorem unquoteFuel_step (fuel : Nat) (tok r out : List Byte) (hne : tok ≠ [])
    (h : readToken (tok ++ r) = some (out, tok.length)) :
    unquoteFuel (fuel + 1) (tok ++ r) =
      match unquoteFuel fuel r with
      | none => none
      | some x => some (out ++ x) := by
  cases tok with
  | nil => exact absurd rfl hne
  | cons a tl =>
    simp only [List.cons_append] at h ⊢
    simp only [unquoteFuel, h]
    have : List.drop (a :: tl).length (a :: (tl ++ r)) = r := by
      rw [← List.cons_append]; simp
    rw [this]

theorem unquoteFuel_escapeUnits (s : List Byte) :
    ∀ fuel, (escapeUnits s).length ≤ fuel →
      unquoteFuel fuel (escapeUnits s) = some (replaceInvalid s) := by
  induction s using unit_induction with
  | nil =>
    intro fuel _
    cases fuel <;> rfl
  | cons b rest t ht ih =>
    intro fuel hf
    rw [escapeUnits_cons b rest t ht] at hf ⊢
    have hne := escapeUnit_ne_nil b rest
    have hpos : 0 < (escapeUnit (headUnit b rest)).length := List.length_pos.mpr hne
    simp only [List.length_append] at hf
    cases fuel with
    | zero => omega
    | succ n =>
      rw [unquoteFuel_step n _ _ _ hne (readToken_escapeUnit b rest _), ih n (by omega),
        replaceInvalid_cons b rest t ht]

theorem tokensFuel_step (fuel : Nat) (tok r : List Byte) (hne : tok ≠ [])
    (h : tokenLength (tok ++ r) = some tok.length) :
    tokensFuel (fuel + 1) (tok ++ r) = tokensFuel fuel r := by
  cases tok with
  | nil => exact absurd rfl hne
  | cons a tl =>
    simp only [List.cons_append] at h ⊢
    simp only [tokensFuel, h]
    have : List.drop (a :: tl).length (a :: (tl ++ r)) = r := by
      rw [← List.cons_append]; simp
    rw [this]

theorem tokensFuel_escapeUnits (s : List Byte) :
    ∀ fuel, (escapeUnits s).length ≤ fuel → tokensFuel fuel (escapeUnits s) = true := by
  induction s using unit_induction with
  | nil =>
    intro fuel _
    cases fuel <;> rfl
  | cons b rest t ht ih =>
    intro fuel hf
    rw [escapeUnits_cons b rest t ht] at hf ⊢
    have hne := escapeUnit_ne_nil b rest
    have hpos : 0 < (escapeUnit (headUnit b rest)).length := List.length_pos.mpr hne
    simp only [List.length_append] at hf
    cases fuel with
    | zero => omega
    | succ n =>
      rw [tokensFuel_step n _ _ hne (tokenLength_escapeUnit b rest _), ih n (by omega)]

theorem unquote_quoted (x : List Byte) :
    unquote ([0x22] ++ x ++ [0x22]) = unquoteFuel (x.length + 1) x := by
  simp [unquote]

theorem isStringLiteral_quoted (x : List Byte) :
    isStringLiteral ([0x22] ++ x ++ [0x22]) = tokensFuel (x.length + 1) x := by
  simp [isStringLiteral]

theorem units_kinds (s : List Byte) : ∀ u ∈ units s,
    (∃ b, u = .ascii b ∧ b.val < 0x80) ∨
    (∃ b, u = .invalid b ∧ 0x80 ≤ b.val) ∨
    (∃ c enc, u = .scalar c enc ∧ 2 ≤ enc.length ∧ enc.length ≤ 4 ∧
      ∀ t : List Byte, DecodeRuneInString (enc ++ t) = (c, enc.length)) := by
  induction s using unit_induction with
  | nil => intro u hu; simp [units_nil] at hu
  | cons b rest t ht ih =>
    intro u hu
    rw [units_cons b rest t ht, List.mem_cons] at hu
    rcases hu with rfl | hu
    · rcases headUnit_cases b rest with ⟨hb, h⟩ | ⟨hb, h, _⟩ | ⟨_, c, enc, _, h, _, _, hw⟩
      · exact Or.inl ⟨b, h, hb⟩
      · exact Or.inr (Or.inl ⟨b, h, hb⟩)
      · exact Or.inr (Or.inr ⟨c, enc, h, hw.two_le, hw.le_four, hw.decode⟩)
    · exact ih u hu

/-- C1. The two-cursor scan computes the naive unit-by-unit mapping: `JSON s`
is a quote, the table entry of every unit of `s` in order, and a quote.  The
units are consecutive pieces of `s`, each one ASCII byte, one byte that starts
no valid encoding, or the two to four bytes of a validly encoded code point. -/
theorem JSON_refines_escapeUnits (s : List Byte) :
    JSON s = .ok ([0x22] ++ (units s).flatMap escapeUnit ++ [0x22]) ∧
    (units s).flatMap CodeUnit.bytes = s ∧
    ∀ u ∈ units s,
      (∃ b, u = .ascii b ∧ b.val < 0x80) ∨
      (∃ b, u = .invalid b ∧ 0x80 ≤ b.val) ∨
      (∃ c enc, u = .scalar c enc ∧ 2 ≤ enc.length ∧ enc.length ≤ 4 ∧
        ∀ t : List Byte, DecodeRuneInString (enc ++ t) = (c, enc.length)) :=
  ⟨JSON_spec s, units_bytes s, units_kinds s⟩

/-- C2. Round trip: a standard JSON string-literal decoder applied to `JSON s`
yields `s` with every byte that is not part of a valid UTF-8 encoding replaced
by U+FFFD, and yields `s` itself when `s` is valid UTF-8. -/
theorem JSON_round_trip (s : List Byte) :
    unquoteRes (JSON s) = some (replaceInvalid s) ∧
    (validString s = true → unquoteRes (JSON s) = some s) := by
  have h : unquoteRes (JSON s) = some (replaceInvalid s) := by
    rw [JSON_spec]
    simp only [unquoteRes]
    rw [unquote_quoted]
    exact unquoteFuel_escapeUnits s _ (by omega)
  refine ⟨h, fun hv => ?_⟩
  rw [h, replaceInvalid_valid s hv]

/-- C3. The output is a well-formed JSON string literal: a quote, a sequence
of tokens (an escape `\"`, `\\`, `\n`, `\r`, `\t`, a `\u` with four
hexadecimal digits, or one character other than the quote, the backslash and
the control characters), and a quote. -/
theorem JSON_well_formed (s : List Byte) : isStringLiteralRes (JSON s) = true := by
  rw [JSON_spec]
  simp only [isStringLiteralRes]
  rw [isStringLiteral_quoted]
  exact tokensFuel_escapeUnits s _ (by omega)

/-- C4. The output has at least two bytes and its first and last bytes are
double quotes, for every input. -/
theorem JSON_quoted (s : List Byte) :
    ∃ out, JSON s = .ok out ∧ 2 ≤ out.length ∧ out.head? = some 0x22 ∧
      out.getLast? = some 0x22 := by
  refine ⟨_, JSON_spec s, ?_, ?_, ?_⟩
  · simp
  · simp
  · rw [List.getLast?_append]
    simp

theorem states_inv (s : List Byte) : ∀ (fuel : Nat) (st : Scan),
    st.start ≤ st.i → st.i ≤ s.length →
    ∀ st' ∈ states s fuel st, st'.start ≤ st'.i ∧ st'.i ≤ s.length := by
  intro fuel
  induction fuel with
  | zero =>
    intro st hs hi st' hm
    unfold states at hm
    split_ifs at hm <;> simp at hm <;> subst hm <;> exact ⟨hs, hi⟩
  | succ n ih =>
    intro st hs hi st' hm
    unfold states at hm
    by_cases hlt : st.i < s.length
    · obtain ⟨st1, hb, h1, _, hl, hst, _⟩ := body_step s st hlt
      simp only [hlt, if_true, hb, List.mem_cons] at hm
      rcases hm with rfl | hm
      · exact ⟨hs, hi⟩
      · exact ih st1 (by omega) hl st' hm
    · simp only [hlt, if_false, List.mem_singleton] at hm
      subst hm
      exact ⟨hs, hi⟩

theorem states_length (s : List Byte) : ∀ (fuel : Nat) (st : Scan),
    st.i ≤ s.length → (states s fuel st).length ≤ s.length - st.i + 1 := by
  intro fuel
  induction fuel with
  | zero =>
    intro st hi
    unfold states
    split_ifs <;> simp
  | succ n ih =>
    intro st hi
    unfold states
    by_cases hlt : st.i < s.length
    · obtain ⟨st1, hb, h1, _, hl, _, _⟩ := body_step s st hlt
      simp only [hlt, if_true, hb, List.length_cons]
      have := ih st1 hl
      omega
    · simp [hlt]

theorem states_last (s : List Byte) : ∀ (fuel : Nat) (st st' : Scan),
    loop s fuel st = .ok st' → st' ∈ states s fuel st := by
  intro fuel
  induction fuel with
  | zero =>
    intro st st' h
    unfold loop at h
    unfold states
    by_cases hlt : st.i < s.length
    · simp [hlt] at h
    · simp only [hlt, if_false] at h ⊢
      simp at h; simp [← h]
  | succ n ih =>
    intro st st' h
    unfold loop at h
    unfold states
    by_cases hlt : st.i < s.length
    · simp only [hlt, if_true] at h ⊢
      cases hb : body s st with
      | fault f => rw [hb] at h; simp at h
      | ok st1 =>
        rw [hb] at h
        simp only [] at h ⊢
        exact List.mem_cons_of_mem _ (ih st1 st' h)
    · simp only [hlt, if_false] at h ⊢
      simp at h; simp [← h]

theorem finish_ok (s : List Byte) (st : Scan) : ∃ out, finish s st = .ok out := by
  unfold finish
  split_ifs with h
  · simp [slice, h.le]
  · exact ⟨_, rfl⟩

theorem loop_ok (s : List Byte) (fuel : Nat) (st : Scan) (hf : s.length ≤ st.i + fuel) :
    ∃ st', loop s fuel st = .ok st' := by
  by_cases hi : st.i ≤ s.length
  · obtain ⟨st', h, _⟩ := loop_spec s fuel st hf hi
    exact ⟨st', h⟩
  · have : ¬ st.i < s.length := by omega
    refine ⟨st, ?_⟩
    cases fuel <;> simp [loop, this]

/-- C5. Totality: `JSON` returns a string for every input, no index or slice
expression being out of range.  Every state of the scan has
`start ≤ i ≤ len(s)`, the one the loop ends in included; an iteration entered with `i < len(s)` succeeds and
leaves `i ≤ len(s)`; the final flush succeeds; the safe-byte table is indexed
below 128 and the hex digits below 16. -/
theorem JSON_total (s : List Byte) :
    (∃ out, JSON s = .ok out) ∧
    (∃ st, loop s s.length initial = .ok st ∧ st ∈ states s s.length initial) ∧
    (∀ st ∈ states s s.length initial, st.start ≤ st.i ∧ st.i ≤ s.length) ∧
    (∀ st : Scan, st.i < s.length → ∃ st', body s st = .ok st' ∧ st'.i ≤ s.length) ∧
    (∀ st : Scan, ∃ out, finish s st = .ok out) ∧
    (∀ b : Byte, b.val < RuneSelf → b.val < htmlSafeSet.length) ∧
    (∀ b : Byte, b.val >>> 4 < hex.length ∧ b.val &&& 0xF < hex.length) ∧
    (∀ c : Nat, c &&& 0xF < hex.length) := by
  refine ⟨⟨_, JSON_spec s⟩, ?_, ?_, ?_, finish_ok s, ?_, ?_, ?_⟩
  · obtain ⟨st, h⟩ := loop_ok s s.length initial (by simp)
    exact ⟨st, h, states_last s _ _ _ h⟩
  · exact states_inv s s.length initial (by simp [initial]) (by simp [initial])
  · intro st hi
    obtain ⟨st', hb, _, _, hl, _⟩ := body_step s st hi
    exact ⟨st', hb, hl⟩
  · intro b hb
    simpa [htmlSafeSet, RuneSelf] using hb
  · intro b
    have hb := b.isLt
    have h2 : b.val &&& 0xF ≤ 0xF := Nat.and_le_right
    simp only [hex, List.length_cons, List.length_nil]
    omega
  · intro c
    have h2 : c &&& 0xF ≤ 0xF := Nat.and_le_right
    simp only [hex, List.length_cons, List.length_nil]
    omega

/-- C6. Termination: an iteration entered at a byte of `s` moves the scan
position forward by at least 1 and at most 4, by exactly 1 at an ASCII byte
or an invalid byte and by the decoded size at any non-ASCII byte; so the loop
never runs out of `len(s)` iterations, goes through at most `len(s) + 1`
states, and more fuel does not change the result. -/
theorem JSON_terminates (s : List Byte) :
    (∀ (st : Scan) (b : Byte) (rest : List Byte), s.drop st.i = b :: rest →
      ∃ st', body s st = .ok st' ∧ st.i + 1 ≤ st'.i ∧ st'.i ≤ st.i + 4 ∧
        (b.val < RuneSelf ∨ DecodeRuneInString (b :: rest) = (RuneError, 1) →
          st'.i = st.i + 1) ∧
        (RuneSelf ≤ b.val → st'.i = st.i + (DecodeRuneInString (b :: rest)).2)) ∧
    (∀ (fuel : Nat) (st : Scan), s.length ≤ st.i + fuel → ∃ st', loop s fuel st = .ok st') ∧
    (states s s.length initial).length ≤ s.length + 1 ∧
    (∀ fuel, s.length ≤ fuel → JSONFuel fuel s = JSON s) ∧
    (∃ out, JSON s = .ok out) := by
  refine ⟨?_, loop_ok s, ?_, ?_, ⟨_, JSON_spec s⟩⟩
  · intro st b rest hd
    obtain ⟨t, ht, h1, h4⟩ := headUnit_bytes b rest
    obtain ⟨st', hb, hi, -⟩ := body_step_aux s st b rest t hd ht
    refine ⟨st', hb, by omega, by omega, ?_, ?_⟩
    · intro h
      rcases headUnit_cases b rest with ⟨_, hu⟩ | ⟨_, hu, _⟩ | ⟨hb80, c, enc, _, hu, _, hdec, hw⟩
      · rw [hi, hu]; rfl
      · rw [hi, hu]; rfl
      · exfalso
        have := hw.two_le
        rcases h with h | h
        · simp only [RuneSelf] at h; omega
        · rw [h] at hdec
          simp only [Prod.mk.injEq] at hdec
          omega
    · intro h
      simp only [RuneSelf] at h
      rcases headUnit_cases b rest with ⟨hlt, _⟩ | ⟨_, hu, hdec⟩ | ⟨_, c, enc, _, hu, _, hdec, _⟩
      · omega
      · rw [hi, hu, hdec]; rfl
      · rw [hi, hu, hdec]; rfl
  · have := states_length s s.length initial (by simp [initial])
    simpa [initial] using this
  · intro fuel hf
    rw [JSONFuel_spec fuel s hf, JSON_spec]

theorem infix_cons_of_ne (p0 : Byte) (ptl : List Byte) (a : Byte) (l : List Byte)
    (h : a ≠ p0) : (p0 :: ptl) <:+: (a :: l) ↔ (p0 :: ptl) <:+: l := by
  rw [List.infix_cons_iff]
  constructor
  · rintro (hp | hi)
    · exact absurd (List.cons_prefix_cons.mp hp).1.symm h
    · exact hi
  · exact Or.inr

theorem infix_append_of_ne (p0 : Byte) (ptl tok l : List Byte) (h : ∀ x ∈ tok, x ≠ p0) :
    (p0 :: ptl) <:+: (tok ++ l) ↔ (p0 :: ptl) <:+: l := by
  induction tok with
  | nil => simp
  | cons a tl ih =>
    rw [List.cons_append, infix_cons_of_ne p0 ptl a _ (h a (by simp))]
    exact ih (fun x hx => h x (by simp [hx]))

theorem wellEncoded_sep (d : Byte) (hd : d = 0xA8 ∨ d = 0xA9) :
    ∀ t : List Byte, DecodeRuneInString (0xE2 :: 0x80 :: d :: t) = (0x2000 + d.val - 0x80, 3) := by
  intro t
  rcases decode_cons 0xE2 (0x80 :: d :: []) (by decide) with h | ⟨enc, t', h1, h2, h3⟩
  · rcases hd with rfl | rfl
    · exact absurd h (by decide)
    · exact absurd h (by decide)
  · have hlen : enc.length = 3 := by
      have : (DecodeRuneInString [0xE2, 0x80, d]).2 = 3 := by
        rcases hd with rfl | rfl <;> decide
      rw [h2] at this
      exact this
    have henc : enc = [0xE2, 0x80, d] := by
      have e1 : List.take 3 enc = enc := List.take_of_length_le (by omega)
      have := congrArg (List.take 3) h1
      rw [List.take_append_of_le_length (by omega), e1] at this
      rw [← this]
      rfl
    have hc : (DecodeRuneInString [0xE2, 0x80, d]).1 = 0x2000 + d.val - 0x80 := by
      rcases hd with rfl | rfl <;> decide
    have := h3.decode t
    rw [henc, hc] at this
    simpa using this

/-- The encoding of a code point other than the separators does not bring a
separator into a string. -/
theorem infix_enc (d : Byte) (hd : d = 0xA8 ∨ d = 0xA9) {c : Nat} {enc : List Byte}
    (hw : WellEncoded c enc) (h8 : c ≠ 0x2028) (h9 : c ≠ 0x2029) (l : List Byte) :
    [0xE2, 0x80, d] <:+: (enc ++ l) ↔ [0xE2, 0x80, d] <:+: l := by
  obtain ⟨e0, tl, rfl, h0⟩ := wellEncoded_cons hw
  have htl : ∀ x ∈ tl, x ≠ (0xE2 : Byte) := by
    intro x hx hxe
    have := hw.cont x (by simpa using hx)
    rw [hxe] at this
    revert this; decide
  rw [List.cons_append, List.infix_cons_iff, infix_append_of_ne _ _ tl l htl]
  constructor
  · rintro (hp | hi)
    · exfalso
      obtain ⟨r, hr⟩ := hp
      have hdec := hw.decode l
      rw [List.cons_append, ← hr] at hdec
      simp only [List.cons_append, List.nil_append] at hdec
      rw [wellEncoded_sep d hd r] at hdec
      simp only [Prod.mk.injEq] at hdec
      rcases hd with rfl | rfl
      · exact h8 (by rw [← hdec.1]; rfl)
      · exact h9 (by rw [← hdec.1]; rfl)
    · exact hi
  · exact Or.inr

theorem ascii_escape_all : ∀ b : Byte, b.val < 0x80 →
    (escapeUnit (.ascii b)).all (fun x => decide (x.val < 0x80)) = true := by
  decide

theorem ascii_escape_bytes (b : Byte) (hb : b.val < 0x80) :
    ∀ x ∈ escapeUnit (.ascii b), x.val < 0x80 := by
  have := ascii_escape_all b hb
  simpa [List.all_eq_true] using this

/-- What the table writes for a unit is ASCII throughout, or the encoding of
a multi-byte code point other than the separators. -/
theorem escapeUnit_ascii_or_enc (b : Byte) (rest : List Byte) :
    (∀ x ∈ escapeUnit (headUnit b rest), x.val < 0x80) ∨
    (∃ c enc, escapeUnit (headUnit b rest) = enc ∧ headUnit b rest = .scalar c enc ∧
      WellEncoded c enc ∧ c ≠ 0x2028 ∧ c ≠ 0x2029) := by
  rcases headUnit_cases b rest with ⟨hb, hu⟩ | ⟨hb, hu, hdec⟩ | ⟨hb, c, enc, t, hu, -, hdec, hw⟩
  · left; rw [hu]; exact ascii_escape_bytes b hb
  · left; rw [hu]; simp only [escapeUnit]; decide
  · rw [hu]
    by_cases h8 : c = 0x2028
    · left
      have he : escapeUnit (.scalar c enc) = [0x5C, 0x75, 0x32, 0x30, 0x32, 0x38] := by
        simp [escapeUnit, h8]
      rw [he]; decide
    by_cases h9 : c = 0x2029
    · left
      have he : escapeUnit (.scalar c enc) = [0x5C, 0x75, 0x32, 0x30, 0x32, 0x39] := by
        simp [escapeUnit, h9]
      rw [he]; decide
    right
    exact ⟨c, enc, by simp [escapeUnit, h8, h9], rfl, hw, h8, h9⟩

theorem infix_escapeUnits (d : Byte) (hd : d = 0xA8 ∨ d = 0xA9) (s : List Byte) :
    ∀ tail : List Byte,
      [0xE2, 0x80, d] <:+: (escapeUnits s ++ tail) ↔ [0xE2, 0x80, d] <:+: tail := by
  induction s using unit_induction with
  | nil => intro tail; simp [escapeUnits_nil]
  | cons b rest t ht ih =>
    intro tail
    rw [escapeUnits_cons b rest t ht, List.append_assoc]
    rcases escapeUnit_ascii_or_enc b rest with h | ⟨c, enc, he, -, hw, h8, h9⟩
    · rw [infix_append_of_ne _ _ _ _ (fun x hx hxe => by
        have := h x hx
        rw [hxe] at this
        revert this; decide)]
      exact ih tail
    · rw [he, infix_enc d hd hw h8 h9]
      exact ih tail

/-- C7. The output never contains a literal U+2028 or U+2029: the byte
sequences E2 80 A8 and E2 80 A9 do not occur in it as contiguous bytes. -/
theorem JSON_no_separator (s : List Byte) :
    ∃ out, JSON s = .ok out ∧ ¬ [0xE2, 0x80, 0xA8] <:+: out ∧ ¬ [0xE2, 0x80, 0xA9] <:+: out := by
  have key : ∀ d : Byte, d = 0xA8 ∨ d = 0xA9 →
      ¬ [0xE2, 0x80, d] <:+: ([0x22] ++ escapeUnits s ++ [0x22]) := by
    intro d hd
    rw [List.append_assoc, List.singleton_append,
      infix_cons_of_ne _ _ _ _ (by decide), infix_escapeUnits d hd s]
    intro h
    have := h.length_le
    simp at this
  exact ⟨_, JSON_spec s, key _ (Or.inl rfl), key _ (Or.inr rfl)⟩

theorem units_ascii_cons (a : Byte) (l : List Byte) (ha : a.val < 0x80) :
    units (a :: l) = .ascii a :: units l := by
  have hu : headUnit a l = .ascii a := by simp [headUnit, ha]
  have := units_cons a l l (by rw [hu]; rfl)
  rw [this, hu]

theorem units_ascii_append (tok l : List Byte) (h : ∀ x ∈ tok, x.val < 0x80) :
    units (tok ++ l) = tok.map .ascii ++ units l := by
  induction tok with
  | nil => rfl
  | cons a tl ih =>
    rw [List.cons_append, units_ascii_cons a _ (h a (by simp)),
      ih (fun x hx => h x (by simp [hx]))]
    rfl

theorem units_enc_append {c : Nat} {enc : List Byte} (hw : WellEncoded c enc)
    (l : List Byte) : units (enc ++ l) = .scalar c enc :: units l := by
  obtain ⟨e0, tl, rfl, h0⟩ := wellEncoded_cons hw
  have hd := hw.decode l
  have hl := hw.two_le
  simp only [List.cons_append] at hd
  have hu : headUnit e0 (tl ++ l) = .scalar c (e0 :: tl) := by
    have h2 : ¬ e0.val < 0x80 := by omega
    have hne : ¬ (c = RuneError ∧ (e0 :: tl).length = 1) := by omega
    simp only [headUnit, h2, if_false, hd, hne]
    rw [← List.cons_append]
    simp
  have := units_cons e0 (tl ++ l) l (by rw [hu]; rfl)
  rw [List.cons_append, this, hu]

theorem filter_map_ascii (tok : List Byte) :
    (tok.map CodeUnit.ascii).filter CodeUnit.isScalar = [] := by
  induction tok with
  | nil => rfl
  | cons a tl ih => simp [List.filter_cons, CodeUnit.isScalar, ih]

theorem all_map_ascii (tok : List Byte) :
    ((tok.map CodeUnit.ascii).all fun u =>
      match u with
      | .invalid _ => false
      | _ => true) = true := by
  induction tok with
  | nil => rfl
  | cons a tl ih => simp [ih]

theorem units_escapeUnits (s : List Byte) : ∀ tail : List Byte,
    (units (escapeUnits s ++ tail)).filter CodeUnit.isScalar =
      (units s).filter (fun u => u.isScalar && !u.escaped) ++
        (units tail).filter CodeUnit.isScalar ∧
    validString (escapeUnits s ++ tail) = validString tail := by
  induction s using unit_induction with
  | nil => intro tail; simp [escapeUnits_nil, units_nil]
  | cons b rest t ht ih =>
    intro tail
    obtain ⟨ih1, ih2⟩ := ih tail
    rw [escapeUnits_cons b rest t ht, List.append_assoc, units_cons b rest t ht]
    rcases escapeUnit_ascii_or_enc b rest with h | ⟨c, enc, he, hu, hw, h8, h9⟩
    · have hf : ((headUnit b rest).isScalar && !(headUnit b rest).escaped) = false := by
        rcases headUnit_cases b rest with ⟨_, hu⟩ | ⟨_, hu, _⟩ | ⟨_, c, enc, _, hu, _, _, hw⟩
        · rw [hu]; rfl
        · rw [hu]; rfl
        · cases hesc : (headUnit b rest).escaped with
          | true => simp
          | false =>
            exfalso
            have he := escapeUnit_literal _ hesc
            rw [hu] at he h
            simp only [CodeUnit.bytes] at he
            obtain ⟨e0, tl, rfl, h0⟩ := wellEncoded_cons hw
            have := h e0 (by rw [he]; simp)
            omega
      constructor
      · rw [units_ascii_append _ _ h, List.filter_append, filter_map_ascii, List.nil_append,
          ih1, List.filter_cons, hf]
        simp
      · simp only [validString] at ih2 ⊢
        rw [units_ascii_append _ _ h, List.all_append, all_map_ascii, Bool.true_and]
        exact ih2
    · rw [he, hu]
      constructor
      · rw [units_enc_append hw, List.filter_cons, List.filter_cons, ih1]
        simp [CodeUnit.isScalar, CodeUnit.escaped, h8, h9]
      · simp only [validString] at ih2 ⊢
        rw [units_enc_append hw, List.all_cons]
        simpa using ih2

/-- C8. The output is valid UTF-8 for every input, and its multi-byte code
points are, in order, the validly encoded multi-byte code points of the input
that the table leaves unescaped: every non-ASCII byte of the output was copied
from the input inside a complete encoding. -/
theorem JSON_valid_utf8 (s : List Byte) :
    ∃ out, JSON s = .ok out ∧ validString out = true ∧
      (units out).filter CodeUnit.isScalar =
        (units s).filter (fun u => u.isScalar && !u.escaped) := by
  refine ⟨_, JSON_spec s, ?_, ?_⟩
  · have h := (units_escapeUnits s [0x22]).2
    rw [List.append_assoc, List.singleton_append]
    simp only [validString] at h ⊢
    rw [units_ascii_cons _ _ (by decide), List.all_cons, h]
    decide
  · have h := (units_escapeUnits s [0x22]).1
    rw [List.append_assoc, List.singleton_append, units_ascii_cons _ _ (by decide),
      List.filter_cons, h]
    have : (units [0x22]).filter CodeUnit.isScalar = [] := by decide
    rw [this]
    simp [CodeUnit.isScalar]

theorem escapeUnits_safe (s : List Byte)
    (h : ∀ b ∈ s, 0x20 ≤ b.val ∧ b.val ≤ 0x7E ∧ b ≠ 0x22 ∧ b ≠ 0x5C) :
    escapeUnits s = s := by
  induction s with
  | nil => rfl
  | cons a l ih =>
    obtain ⟨h20, h7e, hq, hbs⟩ := h a (by simp)
    have hu : headUnit a l = .ascii a := by
      have : a.val < 0x80 := by omega
      simp [headUnit, this]
    have hesc : (CodeUnit.ascii a).escaped = false := by
      have : ¬ a.val < 0x20 := by omega
      simp [CodeUnit.escaped, this, hq, hbs]
    rw [escapeUnits_cons a l l (by rw [hu]; rfl), hu, literal_table a hesc,
      ih (fun b hb => h b (by simp [hb]))]
    rfl

theorem escapeUnits_eq_nil (s : List Byte) : escapeUnits s = [] ↔ s = [] := by
  constructor
  · intro h
    cases s with
    | nil => rfl
    | cons b rest =>
      exfalso
      obtain ⟨t, ht, _, _⟩ := headUnit_bytes b rest
      rw [escapeUnits_cons b rest t ht] at h
      exact escapeUnit_ne_nil b rest (List.append_eq_nil.mp h).1
  · rintro rfl
    rfl

/-- C9. An input made only of safe ASCII bytes (0x20 to 0x7E, not the double
quote, not the backslash) comes back unchanged between two double quotes. -/
theorem JSON_safe_ascii (s : List Byte)
    (h : ∀ b ∈ s, 0x20 ≤ b.val ∧ b.val ≤ 0x7E ∧ b ≠ 0x22 ∧ b ≠ 0x5C) :
    JSON s = .ok ([0x22] ++ s ++ [0x22]) := by
  rw [JSON_spec, escapeUnits_safe s h]

/-- C9 at the input `ab ~`: the hypothesis holds and the output is `"ab ~"`. -/
theorem JSON_safe_ascii_witness :
    (∀ b ∈ ([0x61, 0x62, 0x20, 0x7E] : List Byte),
      0x20 ≤ b.val ∧ b.val ≤ 0x7E ∧ b ≠ 0x22 ∧ b ≠ 0x5C) ∧
    JSON [0x61, 0x62, 0x20, 0x7E] = .ok [0x22, 0x61, 0x62, 0x20, 0x7E, 0x22] :=
  ⟨by decide, JSON_safe_ascii [0x61, 0x62, 0x20, 0x7E] (by decide)⟩

/-- C10. `JSON` of the empty string is the two double quotes, and the empty
string is the only input whose output has length 2. -/
theorem JSON_empty :
    JSON [] = .ok [0x22, 0x22] ∧
    ∀ s : List Byte, ∃ out, JSON s = .ok out ∧ (out.length = 2 ↔ s = []) := by
  refine ⟨rfl, fun s => ⟨_, JSON_spec s, ?_⟩⟩
  rw [← escapeUnits_eq_nil]
  simp only [List.length_append, List.length_singleton]
  constructor
  · intro h
    exact List.length_eq_zero.mp (by omega)
  · intro h
    rw [h]
    rfl

theorem escapeUnits_safe_append (p rest : List Byte)
    (h : ∀ b ∈ p, 0x20 ≤ b.val ∧ b.val ≤ 0x7E ∧ b ≠ 0x22 ∧ b ≠ 0x5C) :
    escapeUnits (p ++ rest) = p ++ escapeUnits rest := by
  induction p with
  | nil => rfl
  | cons a l ih =>
    obtain ⟨h20, h7e, hq, hbs⟩ := h a (by simp)
    have hu : headUnit a (l ++ rest) = .ascii a := by
      have : a.val < 0x80 := by omega
      simp [headUnit, this]
    have hesc : (CodeUnit.ascii a).escaped = false := by
      have : ¬ a.val < 0x20 := by omega
      simp [CodeUnit.escaped, this, hq, hbs]
    rw [List.cons_append, escapeUnits_cons a (l ++ rest) (l ++ rest) (by rw [hu]; rfl), hu,
      literal_table a hesc, ih (fun b hb => h b (by simp [hb]))]
    rfl

/-- The output for one unit of one byte between two runs of safe bytes. -/
theorem JSON_one_byte (p q : List Byte) (b : Byte) (u : CodeUnit)
    (hp : ∀ x ∈ p, 0x20 ≤ x.val ∧ x.val ≤ 0x7E ∧ x ≠ 0x22 ∧ x ≠ 0x5C)
    (hq : ∀ x ∈ q, 0x20 ≤ x.val ∧ x.val ≤ 0x7E ∧ x ≠ 0x22 ∧ x ≠ 0x5C)
    (hu : headUnit b q = u) (hb : u.bytes = [b]) :
    JSON (p ++ [b] ++ q) = .ok ([0x22] ++ p ++ escapeUnit u ++ q ++ [0x22]) := by
  have e : p ++ [b] ++ q = p ++ (b :: q) := by simp
  rw [JSON_spec, e, escapeUnits_safe_append p _ hp,
    escapeUnits_cons b q q (by rw [hu, hb]; rfl), hu, escapeUnits_safe q hq]
  simp

theorem headUnit_invalid_of_safe (b : Byte) (q : List Byte) (hb : 0x80 ≤ b.val)
    (hq : ∀ x ∈ q, 0x20 ≤ x.val ∧ x.val ≤ 0x7E ∧ x ≠ 0x22 ∧ x ≠ 0x5C) :
    headUnit b q = .invalid b := by
  rcases headUnit_cases b q with ⟨h, _⟩ | ⟨_, h, _⟩ | ⟨_, c, enc, t, _, henc, _, hw⟩
  · omega
  · exact h
  · exfalso
    have hl := hw.two_le
    rcases enc with _ | ⟨e0, _ | ⟨e1, tl⟩⟩
    · simp at hl
    · simp at hl
    · have h1 := hw.high e1 (by simp)
      simp only [List.cons_append, List.cons.injEq] at henc
      have hmem : e1 ∈ q := by rw [henc.2]; simp
      have := (hq e1 hmem).2.1
      omega

/-- C11. Between two runs of safe ASCII bytes, any byte `b ≥ 0x80` (it starts
no valid encoding there) is replaced by the six characters `\ufffd` at its
position; the bytes around it are neither consumed nor altered. -/
theorem JSON_invalid_byte (p q : List Byte) (b : Byte)
    (hp : ∀ x ∈ p, 0x20 ≤ x.val ∧ x.val ≤ 0x7E ∧ x ≠ 0x22 ∧ x ≠ 0x5C)
    (hq : ∀ x ∈ q, 0x20 ≤ x.val ∧ x.val ≤ 0x7E ∧ x ≠ 0x22 ∧ x ≠ 0x5C)
    (hb : 0x80 ≤ b.val) :
    JSON (p ++ [b] ++ q) =
      .ok ([0x22] ++ p ++ [0x5C, 0x75, 0x66, 0x66, 0x66, 0x64] ++ q ++ [0x22]) :=
  JSON_one_byte p q b (.invalid b) hp hq (headUnit_invalid_of_safe b q hb hq) rfl

/-- C11 at the input `a`, 0x80, `b`: the output is `"a\ufffdb"`. -/
theorem JSON_invalid_byte_witness :
    JSON [0x61, 0x80, 0x62] =
      .ok [0x22, 0x61, 0x5C, 0x75, 0x66, 0x66, 0x66, 0x64, 0x62, 0x22] :=
  JSON_invalid_byte [0x61] [0x62] 0x80 (by decide) (by decide) (by decide)

theorem control_table : ∀ b : Byte, b.val < 0x20 → b ≠ 0x09 → b ≠ 0x0A → b ≠ 0x0D →
    escapeUnit (.ascii b) =
      [0x5C, 0x75, 0x30, 0x30, hexDigit (b.val / 16), hexDigit (b.val % 16)] ∧
    index hex (b.val >>> 4) = .ok (hexDigit (b.val / 16)) ∧
    index hex (b.val &&& 0xF) = .ok (hexDigit (b.val % 16)) := by
  decide

/-- C12. Between two runs of safe ASCII bytes, a control byte below 0x20 other
than 0x09, 0x0A and 0x0D is replaced by `\u00` and its two lowercase
hexadecimal digits, high nibble first; these are the digits the source reads
from `hex` at `b>>4` and `b&0xF`. -/
theorem JSON_control_byte (p q : List Byte) (b : Byte)
    (hp : ∀ x ∈ p, 0x20 ≤ x.val ∧ x.val ≤ 0x7E ∧ x ≠ 0x22 ∧ x ≠ 0x5C)
    (hq : ∀ x ∈ q, 0x20 ≤ x.val ∧ x.val ≤ 0x7E ∧ x ≠ 0x22 ∧ x ≠ 0x5C)
    (hb : b.val < 0x20) (h9 : b ≠ 0x09) (ha : b ≠ 0x0A) (hd : b ≠ 0x0D) :
    JSON (p ++ [b] ++ q) =
      .ok ([0x22] ++ p ++
        [0x5C, 0x75, 0x30, 0x30, hexDigit (b.val / 16), hexDigit (b.val % 16)] ++ q ++ [0x22]) ∧
    index hex (b.val >>> 4) = .ok (hexDigit (b.val / 16)) ∧
    index hex (b.val &&& 0xF) = .ok (hexDigit (b.val % 16)) := by
  obtain ⟨h1, h2, h3⟩ := control_table b hb h9 ha hd
  refine ⟨?_, h2, h3⟩
  have hu : headUnit b q = .ascii b := by
    have : b.val < 0x80 := by omega
    simp [headUnit, this]
  rw [← h1]
  exact JSON_one_byte p q b (.ascii b) hp hq hu rfl

/-- C12 at the bytes 0x01 and 0x1F between `a` and `b`: the outputs are
`"a\u0001b"` and `"a\u001fb"`. -/
theorem JSON_control_byte_witness :
    JSON [0x61, 0x01, 0x62] =
      .ok [0x22, 0x61, 0x5C, 0x75, 0x30, 0x30, 0x30, 0x31, 0x62, 0x22] ∧
    JSON [0x61, 0x1F, 0x62] =
      .ok [0x22, 0x61, 0x5C, 0x75, 0x30, 0x30, 0x31, 0x66, 0x62, 0x22] :=
  ⟨(JSON_control_byte [0x61] [0x62] 0x01 (by decide) (by decide) (by decide) (by decide)
      (by decide) (by decide)).1,
   (JSON_control_byte [0x61] [0x62] 0x1F (by decide) (by decide) (by decide) (by decide)
      (by decide) (by decide)).1⟩

theorem headUnit_ascii (b : Byte) (q : List Byte) (hb : b.val < 0x80) :
    headUnit b q = .ascii b := by
  simp [headUnit, hb]

/-- C13. Between two runs of safe ASCII bytes, the backslash, the double
quote, 0x0A, 0x0D and 0x09 are replaced by their two-character escapes
`\\`, `\"`, `\n`, `\r` and `\t`. -/
theorem JSON_short_escapes (p q : List Byte)
    (hp : ∀ x ∈ p, 0x20 ≤ x.val ∧ x.val ≤ 0x7E ∧ x ≠ 0x22 ∧ x ≠ 0x5C)
    (hq : ∀ x ∈ q, 0x20 ≤ x.val ∧ x.val ≤ 0x7E ∧ x ≠ 0x22 ∧ x ≠ 0x5C) :
    JSON (p ++ [0x5C] ++ q) = .ok ([0x22] ++ p ++ [0x5C, 0x5C] ++ q ++ [0x22]) ∧
    JSON (p ++ [0x22] ++ q) = .ok ([0x22] ++ p ++ [0x5C, 0x22] ++ q ++ [0x22]) ∧
    JSON (p ++ [0x0A] ++ q) = .ok ([0x22] ++ p ++ [0x5C, 0x6E] ++ q ++ [0x22]) ∧
    JSON (p ++ [0x0D] ++ q) = .ok ([0x22] ++ p ++ [0x5C, 0x72] ++ q ++ [0x22]) ∧
    JSON (p ++ [0x09] ++ q) = .ok ([0x22] ++ p ++ [0x5C, 0x74] ++ q ++ [0x22]) :=
  ⟨JSON_one_byte p q 0x5C (.ascii 0x5C) hp hq (headUnit_ascii _ q (by decide)) rfl,
   JSON_one_byte p q 0x22 (.ascii 0x22) hp hq (headUnit_ascii _ q (by decide)) rfl,
   JSON_one_byte p q 0x0A (.ascii 0x0A) hp hq (headUnit_ascii _ q (by decide)) rfl,
   JSON_one_byte p q 0x0D (.ascii 0x0D) hp hq (headUnit_ascii _ q (by decide)) rfl,
   JSON_one_byte p q 0x09 (.ascii 0x09) hp hq (headUnit_ascii _ q (by decide)) rfl⟩

/-- C13 at `a"b` and at `line1`, 0x0A, `line2`: the first output is the six
characters quote, `a`, backslash, quote, `b`, quote; the second holds a
backslash followed by `n` and no raw newline. -/
theorem JSON_short_escapes_witness :
    JSON [0x61, 0x22, 0x62] = .ok [0x22, 0x61, 0x5C, 0x22, 0x62, 0x22] ∧
    JSON [0x6C, 0x69, 0x6E, 0x65, 0x31, 0x0A, 0x6C, 0x69, 0x6E, 0x65, 0x32] =
      .ok [0x22, 0x6C, 0x69, 0x6E, 0x65, 0x31, 0x5C, 0x6E, 0x6C, 0x69, 0x6E, 0x65, 0x32, 0x22] ∧
    [0x5C, 0x6E] <:+:
      ([0x22, 0x6C, 0x69, 0x6E, 0x65, 0x31, 0x5C, 0x6E, 0x6C, 0x69, 0x6E, 0x65, 0x32, 0x22] :
        List Byte) ∧
    (0x0A : Byte) ∉
      ([0x22, 0x6C, 0x69, 0x6E, 0x65, 0x31, 0x5C, 0x6E, 0x6C, 0x69, 0x6E, 0x65, 0x32, 0x22] :
        List Byte) :=
  ⟨(JSON_short_escapes [0x61] [0x62] (by decide) (by decide)).2.1,
   (JSON_short_escapes [0x6C, 0x69, 0x6E, 0x65, 0x31] [0x6C, 0x69, 0x6E, 0x65, 0x32]
      (by decide) (by decide)).2.2.1,
   ⟨[0x22, 0x6C, 0x69, 0x6E, 0x65, 0x31], [0x6C, 0x69, 0x6E, 0x65, 0x32, 0x22], rfl⟩,
   by decide⟩

theorem headUnit_sep (d : Byte) (hd : d = 0xA8 ∨ d = 0xA9) (q : List Byte) :
    headUnit 0xE2 (0x80 :: d :: q) = .scalar (0x2000 + d.val - 0x80) [0xE2, 0x80, d] := by
  have h := wellEncoded_sep d hd q
  have hne : ¬ ((0x2000 + d.val - 0x80 = RuneError) ∧ (3 = 1)) := by omega
  have hb : ¬ ((0xE2 : Byte).val < 0x80) := by decide
  simp only [headUnit, hb, if_false, h, hne]
  rfl

/-- The output for the separator U+2028 or U+2029 between two runs of safe
bytes. -/
theorem JSON_sep (d : Byte) (hd : d = 0xA8 ∨ d = 0xA9) (p q : List Byte)
    (hp : ∀ x ∈ p, 0x20 ≤ x.val ∧ x.val ≤ 0x7E ∧ x ≠ 0x22 ∧ x ≠ 0x5C)
    (hq : ∀ x ∈ q, 0x20 ≤ x.val ∧ x.val ≤ 0x7E ∧ x ≠ 0x22 ∧ x ≠ 0x5C) :
    JSON (p ++ [0xE2, 0x80, d] ++ q) =
      .ok ([0x22] ++ p ++
        escapeUnit (.scalar (0x2000 + d.val - 0x80) [0xE2, 0x80, d]) ++ q ++ [0x22]) := by
  have e : p ++ [0xE2, 0x80, d] ++ q = p ++ (0xE2 :: 0x80 :: d :: q) := by simp
  have hu := headUnit_sep d hd q
  rw [JSON_spec, e, escapeUnits_safe_append p _ hp,
    escapeUnits_cons 0xE2 (0x80 :: d :: q) q (by rw [hu]; rfl), hu, escapeUnits_safe q hq]
  simp

/-- C14. Between two runs of safe ASCII bytes, the three bytes E2 80 A8 of
U+2028 are replaced by the six characters `\u2028` and the three bytes
E2 80 A9 of U+2029 by `\u2029`; the last digit is the one the source reads
from `hex` at the low four bits of the code point. -/
theorem JSON_separators (p q : List Byte)
    (hp : ∀ x ∈ p, 0x20 ≤ x.val ∧ x.val ≤ 0x7E ∧ x ≠ 0x22 ∧ x ≠ 0x5C)
    (hq : ∀ x ∈ q, 0x20 ≤ x.val ∧ x.val ≤ 0x7E ∧ x ≠ 0x22 ∧ x ≠ 0x5C) :
    JSON (p ++ [0xE2, 0x80, 0xA8] ++ q) =
      .ok ([0x22] ++ p ++ [0x5C, 0x75, 0x32, 0x30, 0x32, 0x38] ++ q ++ [0x22]) ∧
    JSON (p ++ [0xE2, 0x80, 0xA9] ++ q) =
      .ok ([0x22] ++ p ++ [0x5C, 0x75, 0x32, 0x30, 0x32, 0x39] ++ q ++ [0x22]) ∧
    index hex (0x2028 &&& 0xF) = .ok 0x38 ∧ index hex (0x2029 &&& 0xF) = .ok 0x39 :=
  ⟨JSON_sep 0xA8 (Or.inl rfl) p q hp hq, JSON_sep 0xA9 (Or.inr rfl) p q hp hq,
    by decide, by decide⟩

/-- C14 at U+2028 and U+2029 between `a` and `b`: the outputs are `"a\u2028b"`
and `"a\u2029b"`. -/
theorem JSON_separators_witness :
    JSON [0x61, 0xE2, 0x80, 0xA8, 0x62] =
      .ok [0x22, 0x61, 0x5C, 0x75, 0x32, 0x30, 0x32, 0x38, 0x62, 0x22] ∧
    JSON [0x61, 0xE2, 0x80, 0xA9, 0x62] =
      .ok [0x22, 0x61, 0x5C, 0x75, 0x32, 0x30, 0x32, 0x39, 0x62, 0x22] :=
  ⟨(JSON_separators [0x61] [0x62] (by decide) (by decide)).1,
   (JSON_separators [0x61] [0x62] (by decide) (by decide)).2.1⟩

theorem ascii_length_table : ∀ b : Byte,
    1 ≤ (escapeUnit (.ascii b)).length ∧ (escapeUnit (.ascii b)).length ≤ 6 ∧
    ((escapeUnit (.ascii b)).length = 1 ↔ (CodeUnit.ascii b).escaped = false) := by
  decide

/-- The table never shortens a unit, writes at most six bytes per byte, and
writes as many bytes as the unit has exactly when it leaves the unit as is. -/
theorem escapeUnit_length (b : Byte) (rest : List Byte) :
    (headUnit b rest).bytes.length ≤ (escapeUnit (headUnit b rest)).length ∧
    (escapeUnit (headUnit b rest)).length ≤ 6 * (headUnit b rest).bytes.length ∧
    ((escapeUnit (headUnit b rest)).length = (headUnit b rest).bytes.length ↔
      (headUnit b rest).escaped = false) := by
  rcases headUnit_cases b rest with ⟨_, hu⟩ | ⟨_, hu, _⟩ | ⟨_, c, enc, _, hu, _, _, hw⟩
  · rw [hu]
    obtain ⟨h1, h2, h3⟩ := ascii_length_table b
    simp only [CodeUnit.bytes, List.length_singleton]
    exact ⟨h1, by omega, h3⟩
  · rw [hu]
    simp [CodeUnit.bytes, escapeUnit, CodeUnit.escaped]
  · rw [hu]
    have hl := hw.two_le
    have hl4 := hw.le_four
    by_cases h8 : c = 0x2028
    · have := hw.sep8 h8
      subst this
      simp [CodeUnit.bytes, escapeUnit, CodeUnit.escaped, h8]
    by_cases h9 : c = 0x2029
    · have := hw.sep9 h9
      subst this
      simp [CodeUnit.bytes, escapeUnit, CodeUnit.escaped, h9]
    simp only [CodeUnit.bytes, escapeUnit, CodeUnit.escaped, h8, h9, if_false]
    refine ⟨le_refl _, by omega, ?_⟩
    simp

theorem escapeUnits_length (s : List Byte) :
    s.length ≤ (escapeUnits s).length ∧ (escapeUnits s).length ≤ 6 * s.length ∧
    ((escapeUnits s).length = s.length ↔ ∀ u ∈ units s, u.escaped = false) := by
  induction s using unit_induction with
  | nil => simp [escapeUnits_nil, units_nil]
  | cons b rest t ht ih =>
    obtain ⟨i1, i2, i3⟩ := ih
    obtain ⟨h1, h2, h3⟩ := escapeUnit_length b rest
    have hlen : (b :: rest).length = (headUnit b rest).bytes.length + t.length := by
      conv_lhs => rw [ht]
      simp
    rw [escapeUnits_cons b rest t ht, units_cons b rest t ht, List.length_append, hlen]
    refine ⟨by omega, by omega, ?_⟩
    simp only [List.mem_cons, forall_eq_or_imp]
    rw [← h3, ← i3]
    omega

/-- C20. Output length bounds: `len(s) + 2 ≤ len(JSON(s)) ≤ 6 * len(s) + 2`,
and the output has exactly `len(s) + 2` bytes, the size the builder is grown
to, precisely when no unit of `s` is escaped. -/
theorem JSON_length (s : List Byte) :
    ∃ out, JSON s = .ok out ∧ s.length + 2 ≤ out.length ∧ out.length ≤ 6 * s.length + 2 ∧
      (out.length = s.length + 2 ↔ ∀ u ∈ units s, u.escaped = false) := by
  obtain ⟨h1, h2, h3⟩ := escapeUnits_length s
  refine ⟨_, JSON_spec s, ?_, ?_, ?_⟩
  · simp only [List.length_append, List.length_singleton]; omega
  · simp only [List.length_append, List.length_singleton]; omega
  · rw [← h3]
    simp only [List.length_append, List.length_singleton]
    omega

/-- C15. Escaping is not idempotent: for every input, escaping the output
again gives a strictly longer, hence different, string, because the two
quotes of the first output are escaped. -/
theorem JSON_not_idempotent (s : List Byte) :
    ∃ out out2, JSON s = .ok out ∧ JSON out = .ok out2 ∧ out.length < out2.length ∧
      out2 ≠ out := by
  have hlt : ([0x22] ++ escapeUnits s ++ [0x22]).length <
      ([0x22] ++ escapeUnits ([0x22] ++ escapeUnits s ++ [0x22]) ++ [0x22]).length := by
    have h1 : [0x22] ++ escapeUnits s ++ [0x22] = 0x22 :: (escapeUnits s ++ [0x22]) := by simp
    have hu : headUnit 0x22 (escapeUnits s ++ [0x22]) = .ascii 0x22 :=
      headUnit_ascii _ _ (by decide)
    have h2 := escapeUnits_cons 0x22 (escapeUnits s ++ [0x22]) (escapeUnits s ++ [0x22])
      (by rw [hu]; rfl)
    have h3 := (escapeUnits_length (escapeUnits s ++ [0x22])).1
    have he : escapeUnit (.ascii 0x22) = [0x5C, 0x22] := by decide
    rw [h1, h2, hu, he]
    simp only [List.length_append, List.length_cons, List.length_nil] at h3 ⊢
    omega
  refine ⟨_, _, JSON_spec s, JSON_spec _, hlt, ?_⟩
  intro h
  rw [h] at hlt
  exact Nat.lt_irrefl _ hlt

/-- C15 at the input `a`: the output is quote, `a`, quote, and escaping that
again gives the seven characters quote, backslash, quote, `a`, backslash,
quote, quote. -/
theorem JSON_not_idempotent_witness :
    JSON [0x61] = .ok [0x22, 0x61, 0x22] ∧
    JSON [0x22, 0x61, 0x22] = .ok [0x22, 0x5C, 0x22, 0x61, 0x5C, 0x22, 0x22] ∧
    JSON [0x22, 0x61, 0x22] ≠ JSON [0x61] := by
  decide


theorem escapeUnits_of_not_escaped (s : List Byte) (h : ∀ u ∈ units s, u.escaped = false) :
    escapeUnits s = s := by
  induction s using unit_induction with
  | nil => rfl
  | cons b rest t ht ih =>
    rw [units_cons b rest t ht] at h
    rw [escapeUnits_cons b rest t ht, escapeUnit_literal _ (h _ (by simp)),
      ih (fun u hu => h u (by simp [hu]))]
    exact ht.symm

/-- C18. A valid UTF-8 input all of whose code points are multi-byte (at
least U+0080) and different from U+2028 and U+2029 comes back unchanged
between two double quotes: no such code point is turned into an escape. -/
theorem JSON_multibyte_verbatim (s : List Byte)
    (h : (units s).all (fun u =>
      match u with
      | .scalar c _ => decide (0x80 ≤ c ∧ c ≠ 0x2028 ∧ c ≠ 0x2029)
      | _ => false) = true) :
    JSON s = .ok ([0x22] ++ s ++ [0x22]) := by
  rw [JSON_spec, escapeUnits_of_not_escaped s]
  intro u hu
  have := List.all_eq_true.mp h u hu
  cases u with
  | ascii b => simp at this
  | invalid b => simp at this
  | scalar c enc =>
    simp only [decide_eq_true_eq] at this
    simp [CodeUnit.escaped, this.2.1, this.2.2]

/-- C18 at U+FFFD (EF BF BD), the C1 control U+0080 (C2 80), U+00E9 (C3 A9)
and U+1F600 (F0 9F 98 80): the hypothesis holds and the output is the input
between two quotes. -/
theorem JSON_multibyte_verbatim_witness :
    (units [0xEF, 0xBF, 0xBD, 0xC2, 0x80, 0xC3, 0xA9, 0xF0, 0x9F, 0x98, 0x80]).all (fun u =>
      match u with
      | .scalar c _ => decide (0x80 ≤ c ∧ c ≠ 0x2028 ∧ c ≠ 0x2029)
      | _ => false) = true ∧
    JSON [0xEF, 0xBF, 0xBD, 0xC2, 0x80, 0xC3, 0xA9, 0xF0, 0x9F, 0x98, 0x80] =
      .ok [0x22, 0xEF, 0xBF, 0xBD, 0xC2, 0x80, 0xC3, 0xA9, 0xF0, 0x9F, 0x98, 0x80, 0x22] :=
  ⟨by decide, JSON_multibyte_verbatim _ (by decide)⟩

theorem units_append_valid (a b : List Byte) (hv : validString a = true) :
    units (a ++ b) = units a ++ units b := by
  induction a using unit_induction with
  | nil => rfl
  | cons b0 rest t ht ih =>
    simp only [validString, units_cons b0 rest t ht, List.all_cons, Bool.and_eq_true] at hv
    have iht := ih (by simpa [validString] using hv.2)
    have hu : headUnit b0 (rest ++ b) = headUnit b0 rest := by
      rcases headUnit_cases b0 rest with ⟨hb, h⟩ | ⟨_, h, _⟩ | ⟨hb, c, enc, t', h, henc, _, hw⟩
      · rw [h, headUnit_ascii b0 _ hb]
      · rw [h] at hv; simp at hv
      · rw [h]
        obtain ⟨e0, tl, rfl, h0⟩ := wellEncoded_cons hw
        simp only [List.cons_append, List.cons.injEq] at henc
        obtain ⟨rfl, hrest⟩ := henc
        have hd := hw.decode (t' ++ b)
        have hl := hw.two_le
        have h2 : ¬ b0.val < 0x80 := by omega
        have hne : ¬ (c = RuneError ∧ (b0 :: tl).length = 1) := by omega
        have e : b0 :: (rest ++ b) = (b0 :: tl) ++ (t' ++ b) := by simp [hrest]
        simp only [headUnit, h2, if_false]
        rw [e, hd]
        simp only [hne, if_false]
        simp
    have ht2 : b0 :: (rest ++ b) = (headUnit b0 (rest ++ b)).bytes ++ (t ++ b) := by
      rw [hu, ← List.append_assoc, ← ht]
      rfl
    rw [List.cons_append, units_cons b0 (rest ++ b) (t ++ b) ht2, hu, iht,
      units_cons b0 rest t ht]
    rfl

/-- C19. Concatenation at a code point boundary: when `a` is valid UTF-8, what
stands between the quotes of `JSON (a ++ b)` is what stands between the quotes
of `JSON a` followed by what stands between the quotes of `JSON b`. -/
theorem JSON_append (a b : List Byte) (hv : validString a = true) :
    ∃ oa ob oab, JSON a = .ok oa ∧ JSON b = .ok ob ∧ JSON (a ++ b) = .ok oab ∧
      oab.tail.dropLast = oa.tail.dropLast ++ ob.tail.dropLast := by
  refine ⟨_, _, _, JSON_spec a, JSON_spec b, JSON_spec (a ++ b), ?_⟩
  have hc : ∀ x : List Byte, ([0x22] ++ x ++ [0x22]).tail.dropLast = x := by
    intro x
    simp
  rw [hc, hc, hc]
  simp only [escapeUnits, units_append_valid a b hv, List.flatMap_append]

/-- C19 at `a` the encoding of U+00E9 (C3 A9) and `b` the bytes `"`, 0x80. -/
theorem JSON_append_witness :
    validString [0xC3, 0xA9] = true ∧
    ∃ oa ob oab, JSON [0xC3, 0xA9] = .ok oa ∧ JSON [0x22, 0x80] = .ok ob ∧
      JSON ([0xC3, 0xA9] ++ [0x22, 0x80]) = .ok oab ∧
      oab.tail.dropLast = oa.tail.dropLast ++ ob.tail.dropLast :=
  ⟨by decide, JSON_append [0xC3, 0xA9] [0x22, 0x80] (by decide)⟩

/-- Without the validity of `a` the concatenation law fails: `E2` alone and
`80 A8` alone are three invalid bytes, together they are U+2028. -/
theorem JSON_append_invalid :
    JSON [0xE2] = .ok [0x22, 0x5C, 0x75, 0x66, 0x66, 0x66, 0x64, 0x22] ∧
    JSON [0x80, 0xA8] =
      .ok [0x22, 0x5C, 0x75, 0x66, 0x66, 0x66, 0x64, 0x5C, 0x75, 0x66, 0x66, 0x66, 0x64, 0x22] ∧
    JSON ([0xE2] ++ [0x80, 0xA8]) = .ok [0x22, 0x5C, 0x75, 0x32, 0x30, 0x32, 0x38, 0x22] := by
  decide

/-- The result of `JSON` with the pool as state, for a non-empty input:
whatever the acquired builder held comes first. -/
theorem JSONPool_spec (pool : Pool) (k : Nat) (s : List Byte) (hs : s ≠ []) :
    JSONPool pool k s =
      .ok ((pool.get k).1 ++ [0x22] ++ escapeUnits s ++ [0x22], (pool.get k).2.put []) := by
  have h0 : ¬ s.length = 0 := fun h => hs (List.length_eq_zero.mp h)
  obtain ⟨st', hl, hi, hden⟩ :=
    loop_spec s s.length { e := (pool.get k).1 ++ [0x22], start := 0, i := 0 }
      (by simp) (by simp)
  obtain ⟨_, hd⟩ := hden (by simp)
  simp only [JSONPool, h0, if_false, hl, finish_spec s st' hi, hd]
  simp [Scan.denote]

theorem Pool.get_empty (pool : Pool) (k : Nat) (hinv : ∀ e ∈ pool, e = []) :
    (pool.get k).1 = [] ∧ ∀ e ∈ (pool.get k).2, e = [] := by
  unfold Pool.get
  cases h : pool[k]? with
  | none => exact ⟨rfl, hinv⟩
  | some e =>
    refine ⟨hinv e (List.getElem?_mem h), ?_⟩
    intro x hx
    exact hinv x ((List.eraseIdx_sublist pool k).subset hx)

/-- C17. With the pool as explicit state, a call of `JSON` keeps every builder
held by the pool empty: for a non-empty input the acquired builder is put back
once, reset, after the result is taken; for the empty input the pool is
untouched; and the result is that of `JSON` on a fresh builder, whichever
builder the pool handed out. -/
theorem JSONPool_invariant (pool : Pool) (k : Nat) (s : List Byte)
    (hinv : ∀ e ∈ pool, e = []) :
    ∃ out pool', JSONPool pool k s = .ok (out, pool') ∧
      (∀ e ∈ pool', e = []) ∧
      JSON s = .ok out ∧
      (s = [] → pool' = pool) ∧
      (s ≠ [] → pool' = (pool.get k).2.put [] ∧
        pool'.length = (pool.get k).2.length + 1) := by
  by_cases hs : s = []
  · subst hs
    exact ⟨[0x22, 0x22], pool, rfl, hinv, rfl, fun _ => rfl, fun h => absurd rfl h⟩
  · obtain ⟨h1, h2⟩ := Pool.get_empty pool k hinv
    refine ⟨_, _, JSONPool_spec pool k s hs, ?_, ?_, fun h => absurd h hs, fun _ => ⟨rfl, ?_⟩⟩
    · intro e he
      simp only [Pool.put, List.mem_cons] at he
      rcases he with rfl | he
      · rfl
      · exact h2 e he
    · rw [JSON_spec, h1]
      simp
    · simp [Pool.put]

/-- C17 at a pool of two empty builders, the second one handed out, and the
input `a"`. -/
theorem JSONPool_invariant_witness :
    (∀ e ∈ ([[], []] : Pool), e = []) ∧
    ∃ out pool', JSONPool [[], []] 1 [0x61, 0x22] = .ok (out, pool') ∧
      (∀ e ∈ pool', e = []) ∧
      JSON [0x61, 0x22] = .ok out ∧
      (([0x61, 0x22] : List Byte) = [] → pool' = [[], []]) ∧
      (([0x61, 0x22] : List Byte) ≠ [] → pool' = (Pool.get [[], []] 1).2.put [] ∧
        pool'.length = (Pool.get [[], []] 1).2.length + 1) :=
  ⟨by decide, JSONPool_invariant [[], []] 1 [0x61, 0x22] (by decide)⟩

/-- The invariant is what keeps results apart: a builder put into the pool
with content would have that content come out in front of the next result. -/
theorem JSONPool_stale :
    JSONPool [[0x41]] 0 [0x61] = .ok ([0x41, 0x22, 0x61, 0x22], [[]]) := by
  decide

/-- Calls in sequence from the initial pool `buf`: the pool holds one empty
builder after the first call and still one after the second. -/
theorem JSONPool_twice :
    JSONPool buf 0 [0x61] = .ok ([0x22, 0x61, 0x22], [[]]) ∧
    JSONPool [[]] 0 [0x62] = .ok ([0x22, 0x62, 0x22], [[]]) := by
  decide

end Escape
